import Mathlib

/-!
Verification development for the digbuild world generator
(`src/world_generator.cc`).

The generator sources in `src/` contain `WorldGenerator` and
`RegionFeatures`; the noise primitives (`BicubicPatch`, `TrilinearBox`),
the chunk/block storage (`Chunk`, `Block`), and the seeded random
utilities (`random.h`, boost RNGs) are declared in headers that are not
part of `src/`, so they are modelled from the spec below (each such
definition carries a doc comment starting `Modelled from the spec:`).
Scalars (C++ `float`) are modelled as exact rationals.
-/

set_option maxHeartbeats 1000000

set_option maxRecDepth 2000

abbrev Scalar := ℚ

/-- Modelled from the spec: the coordinate-packing half of
`SeededRandomStream.derive` — an integer coordinate component reduced to a
machine word so that several components can be packed into one integer.
(The concrete source, `random.h`, is not part of `src/`.) -/
def packInt (i : ℤ) : ℕ := (i % (2 : ℤ) ^ 32).toNat

/-- Modelled from the spec: the fixed deterministic mixing function used by
`SeededRandomStream.derive` (multiplicative hashing on 64-bit words). -/
def mix64 (n : ℕ) : ℕ := (n * 6364136223846793005 + 1442695040888963407) % 2 ^ 64

/-- Modelled from the spec: `derive(world_seed, coordinate)` for a 2-D
coordinate — the packed coordinate is XOR-combined with the world seed and
mixed, yielding an independent-looking per-location seed. -/
def derive2 (seed : ℕ) (p : ℤ × ℤ) : ℕ :=
  mix64 (seed ^^^ (packInt p.1 * 2 ^ 32 + packInt p.2))

/-- Modelled from the spec: `derive(world_seed, coordinate)` for a 3-D
coordinate. -/
def derive3 (seed : ℕ) (p : ℤ × ℤ × ℤ) : ℕ :=
  mix64 (seed ^^^ (packInt p.1 * 2 ^ 64 + packInt p.2.1 * 2 ^ 32 + packInt p.2.2))

/-- Modelled from the spec: `next_uniform(seed, low, high)` — a reproducible
value in `[low, high]` derived from a linear-congruential-style generator
seeded by `seed`. -/
def nextUniform (seed : ℕ) (lo hi : Scalar) : Scalar :=
  lo + (hi - lo) * ((mix64 seed % 1024 : ℕ) : Scalar) / 1024

theorem nextUniform_mem (seed : ℕ) {lo hi : Scalar} (h : lo ≤ hi) :
    lo ≤ nextUniform seed lo hi ∧ nextUniform seed lo hi ≤ hi := by
  unfold nextUniform
  have hk0 : (0 : Scalar) ≤ ((mix64 seed % 1024 : ℕ) : Scalar) := by positivity
  have hk1 : ((mix64 seed % 1024 : ℕ) : Scalar) ≤ 1024 := by
    have : (mix64 seed % 1024) < 1024 := Nat.mod_lt _ (by norm_num)
    exact_mod_cast this.le
  constructor
  · nlinarith
  · nlinarith

/-! ## BicubicPatch

Structures `BicubicPatchCornerFeatures` and `BicubicPatchFeatures` mirror
the constructor calls in `WorldGenerator::generate_region`
(`src/world_generator.cc`, lines 29–55): each corner carries a
height-value range plus three derivative ranges, and a patch's features
carry one corner-feature set per corner. -/

structure BicubicPatchCornerFeatures where
  heightRange : Scalar × Scalar
  dxRange : Scalar × Scalar
  dzRange : Scalar × Scalar
  dxzRange : Scalar × Scalar

structure BicubicPatchFeatures where
  f00 : BicubicPatchCornerFeatures
  f10 : BicubicPatchCornerFeatures
  f01 : BicubicPatchCornerFeatures
  f11 : BicubicPatchCornerFeatures

/-- Modelled from the spec: a `BicubicPatch` holds one seeded scalar per
corner of its square footprint (`cXZ` with X, Z each `0` = low edge and
`1` = high edge). -/
structure BicubicPatch where
  c00 : Scalar
  c10 : Scalar
  c01 : Scalar
  c11 : Scalar

def smoothstep (t : Scalar) : Scalar := t * t * (3 - 2 * t)

def lerp (a b t : Scalar) : Scalar := a + t * (b - a)

/-- Modelled from the spec: `BicubicPatch.interpolate` blends the four
corner values over the unit square using smoothstep weights; it is
continuous and exact at the corners. -/
def BicubicPatch.interpolate (p : BicubicPatch) (u v : Scalar) : Scalar :=
  lerp (lerp p.c00 p.c10 (smoothstep u)) (lerp p.c01 p.c11 (smoothstep u)) (smoothstep v)

/-- Modelled from the spec: a patch corner's value is sampled from the
corner's height range, seeded by the *absolute* corner position, so two
patches sharing a corner position and seed sample the same value. -/
def cornerValue (seed : ℕ) (p : ℤ × ℤ) (r : Scalar × Scalar) : Scalar :=
  nextUniform (derive2 seed p) r.1 r.2

/-- Modelled from the spec: `BicubicPatch` construction from a seed, an
absolute anchor position, the patch footprint size and the corner feature
ranges. -/
def BicubicPatch.build (seed : ℕ) (anchor : ℤ × ℤ) (size : ℤ × ℤ)
    (f : BicubicPatchFeatures) : BicubicPatch :=
  { c00 := cornerValue seed anchor f.f00.heightRange
    c10 := cornerValue seed (anchor.1 + size.1, anchor.2) f.f10.heightRange
    c01 := cornerValue seed (anchor.1, anchor.2 + size.2) f.f01.heightRange
    c11 := cornerValue seed (anchor.1 + size.1, anchor.2 + size.2) f.f11.heightRange }

theorem smoothstep_zero : smoothstep 0 = 0 := by norm_num [smoothstep]

theorem smoothstep_one : smoothstep 1 = 1 := by norm_num [smoothstep]

theorem lerp_zero (a b : Scalar) : lerp a b 0 = a := by simp [lerp]

theorem lerp_one (a b : Scalar) : lerp a b 1 = b := by simp [lerp]

theorem smoothstep_mem {t : Scalar} (h0 : 0 ≤ t) (h1 : t ≤ 1) :
    0 ≤ smoothstep t ∧ smoothstep t ≤ 1 := by
  constructor
  · unfold smoothstep; nlinarith
  · unfold smoothstep; nlinarith [sq_nonneg (1 - t), sq_nonneg t]

theorem lerp_mem {a b t lo hi : Scalar} (ha : lo ≤ a ∧ a ≤ hi) (hb : lo ≤ b ∧ b ≤ hi)
    (ht : 0 ≤ t ∧ t ≤ 1) : lo ≤ lerp a b t ∧ lerp a b t ≤ hi := by
  unfold lerp
  constructor
  · nlinarith [mul_nonneg ht.1 (sub_nonneg.mpr hb.1), mul_nonneg ht.1 (sub_nonneg.mpr ha.1)]
  · nlinarith [mul_nonneg ht.1 (sub_nonneg.mpr hb.1), mul_nonneg ht.1 (sub_nonneg.mpr ha.1)]

theorem interpolate_mem {p : BicubicPatch} {lo hi : Scalar}
    (h00 : lo ≤ p.c00 ∧ p.c00 ≤ hi) (h10 : lo ≤ p.c10 ∧ p.c10 ≤ hi)
    (h01 : lo ≤ p.c01 ∧ p.c01 ≤ hi) (h11 : lo ≤ p.c11 ∧ p.c11 ≤ hi)
    {u v : Scalar} (hu : 0 ≤ u ∧ u ≤ 1) (hv : 0 ≤ v ∧ v ≤ 1) :
    lo ≤ p.interpolate u v ∧ p.interpolate u v ≤ hi := by
  unfold BicubicPatch.interpolate
  exact lerp_mem (lerp_mem h00 h10 (smoothstep_mem hu.1 hu.2))
    (lerp_mem h01 h11 (smoothstep_mem hu.1 hu.2)) (smoothstep_mem hv.1 hv.2)

/-! ## TrilinearBox -/

/-- Modelled from the spec: a `TrilinearBox` is a 3-D density field given by
scalar values on a coarse lattice (`density` maps a lattice index to the
seeded corner value), together with the box footprint `size` and the
lattice spacing `period` (the grid resolution constant passed at
construction). -/
structure TrilinearBox where
  size : ℤ × ℤ × ℤ
  period : ℤ
  density : ℤ × ℤ × ℤ → Scalar

/-- Modelled from the spec: `TrilinearBox` construction samples a density in
`[0, 1]` at every lattice point, seeded by the absolute lattice-point
position, so adjacent boxes with the same seed agree at shared lattice
points. -/
def TrilinearBox.build (seed : ℕ) (anchor : ℤ × ℤ × ℤ) (size : ℤ × ℤ × ℤ)
    (period : ℤ) : TrilinearBox :=
  { size := size, period := period
    density := fun idx =>
      nextUniform
        (derive3 seed
          (anchor.1 + period * idx.1, anchor.2.1 + period * idx.2.1,
            anchor.2.2 + period * idx.2.2)) 0 1 }

/-- Modelled from the spec: `TrilinearBox.interpolate` maps a normalized
position in `[0,1]^3` to the enclosing lattice cell and blends the eight
cell-corner densities trilinearly. -/
def TrilinearBox.interpolate (b : TrilinearBox) (p : Scalar × Scalar × Scalar) : Scalar :=
  let wx := p.1 * b.size.1 / b.period
  let wy := p.2.1 * b.size.2.1 / b.period
  let wz := p.2.2 * b.size.2.2 / b.period
  let cx := ⌊wx⌋
  let cy := ⌊wy⌋
  let cz := ⌊wz⌋
  let tx := wx - cx
  let ty := wy - cy
  let tz := wz - cz
  lerp
    (lerp (lerp (b.density (cx, cy, cz)) (b.density (cx + 1, cy, cz)) tx)
      (lerp (b.density (cx, cy + 1, cz)) (b.density (cx + 1, cy + 1, cz)) tx) ty)
    (lerp (lerp (b.density (cx, cy, cz + 1)) (b.density (cx + 1, cy, cz + 1)) tx)
      (lerp (b.density (cx, cy + 1, cz + 1)) (b.density (cx + 1, cy + 1, cz + 1)) tx) ty)
    tz

/-- A box whose lattice densities are all the constant `q`; used to build
concrete `RegionFeatures` inputs for counterexamples and witnesses. -/
def constBox (q : Scalar) : TrilinearBox :=
  { size := (64, 256, 64), period := 32, density := fun _ => q }

theorem constBox_interpolate (q : Scalar) (p : Scalar × Scalar × Scalar) :
    (constBox q).interpolate p = q := by
  simp [TrilinearBox.interpolate, constBox, lerp]

/-- A patch whose four corners all hold the constant `c`. -/
def constPatch (c : Scalar) : BicubicPatch := ⟨c, c, c, c⟩

theorem constPatch_interpolate (c u v : Scalar) :
    (constPatch c).interpolate u v = c := by
  simp [BicubicPatch.interpolate, constPatch, lerp]

/-! ## Configuration constants

`Chunk::SIZE_X/Y/Z` and `WorldGenerator::REGION_SIZE` are declared in
headers that are not part of `src/`. Modelled from the spec: fixed
per-build constants. The values below satisfy all the relationships the
source relies on: `REGION_SIZE` is a multiple of the chunk edge sizes
(`CHUNKS_PER_REGION_EDGE = REGION_SIZE / Chunk::SIZE_X`), the
`2 × 2` octave-patch grid tiles the region
(`BICUBIC_OCTAVE_EDGE = REGION_SIZE / 2`), and the trilinear box's
vertical extent `TRILINEAR_BOX_HEIGHT` covers every height the layering
can produce. -/

def Chunk.SIZE_X : ℕ := 16

def Chunk.SIZE_Y : ℕ := 16

def Chunk.SIZE_Z : ℕ := 16

def WorldGenerator.REGION_SIZE : ℕ := 64

def RegionFeatures.BICUBIC_OCTAVE_EDGE : ℕ := 32

def RegionFeatures.TRILINEAR_BOX_HEIGHT : ℕ := 256

/-- `WorldGenerator::CHUNKS_PER_REGION_EDGE` (src/world_generator.cc:12). -/
def WorldGenerator.CHUNKS_PER_REGION_EDGE : ℕ × ℕ :=
  (WorldGenerator.REGION_SIZE / Chunk.SIZE_X, WorldGenerator.REGION_SIZE / Chunk.SIZE_Z)

/-- `RegionFeatures::TRILINEAR_BOX_SIZE` (src/world_generator.cc:249). -/
def RegionFeatures.TRILINEAR_BOX_SIZE : ℤ × ℤ × ℤ :=
  ((WorldGenerator.REGION_SIZE : ℤ), (RegionFeatures.TRILINEAR_BOX_HEIGHT : ℤ),
    (WorldGenerator.REGION_SIZE : ℤ))

/-! ## RegionFeatures (src/world_generator.cc:256-297) -/

structure RegionFeatures where
  fundamental : BicubicPatch
  octave00 : BicubicPatch
  octave01 : BicubicPatch
  octave10 : BicubicPatch
  octave11 : BicubicPatch
  box0 : TrilinearBox
  box1 : TrilinearBox

/-- `RegionFeatures::get_octave_patch`, indexed by the octave-cell index
pair; indices outside the 2 × 2 grid (impossible at the call sites, cf.
the domain-safety theorem) are totalized to the `(0,0)` patch. -/
def RegionFeatures.getOctavePatch (f : RegionFeatures) (idx : ℤ × ℤ) : BicubicPatch :=
  if idx = (0, 0) then f.octave00
  else if idx = (0, 1) then f.octave01
  else if idx = (1, 0) then f.octave10
  else if idx = (1, 1) then f.octave11
  else f.octave00

/-- `RegionFeatures::RegionFeatures` (src/world_generator.cc:256-297):
the fundamental patch spans the region, four octave patches tile it in a
2 × 2 grid, and the two cave-density boxes are built over the region
footprint with distinct seed salts. -/
def RegionFeatures.build (world_seed : ℕ) (position : ℤ × ℤ)
    (fundamental_features octave_features : BicubicPatchFeatures) : RegionFeatures :=
  let R : ℤ := WorldGenerator.REGION_SIZE
  let E : ℤ := RegionFeatures.BICUBIC_OCTAVE_EDGE
  let octave_seed := world_seed ^^^ 0xfea873529eaf
  { fundamental := BicubicPatch.build world_seed position (R, R) fundamental_features
    octave00 := BicubicPatch.build octave_seed (position.1, position.2) (E, E) octave_features
    octave01 := BicubicPatch.build octave_seed (position.1, position.2 + E) (E, E) octave_features
    octave10 := BicubicPatch.build octave_seed (position.1 + E, position.2) (E, E) octave_features
    octave11 := BicubicPatch.build octave_seed (position.1 + E, position.2 + E) (E, E) octave_features
    box0 := TrilinearBox.build world_seed (position.1, 0, position.2)
      RegionFeatures.TRILINEAR_BOX_SIZE 32
    box1 := TrilinearBox.build (world_seed ^^^ 0x313535f3235) (position.1, 0, position.2)
      RegionFeatures.TRILINEAR_BOX_SIZE 32 }

/-- The fundamental corner features built in `WorldGenerator::generate_region`
(src/world_generator.cc:29-34). -/
def fundamentalCornerFeatures : BicubicPatchCornerFeatures :=
  ⟨(0, 128), (-64, 64), (-64, 64), (-64, 64)⟩

/-- src/world_generator.cc:36-41. -/
def fundamentalFeatures : BicubicPatchFeatures :=
  ⟨fundamentalCornerFeatures, fundamentalCornerFeatures, fundamentalCornerFeatures,
    fundamentalCornerFeatures⟩

/-- src/world_generator.cc:43-48. -/
def octaveCornerFeatures : BicubicPatchCornerFeatures :=
  ⟨(-32, 32), (-64, 64), (-64, 64), (-64, 64)⟩

/-- src/world_generator.cc:50-55. -/
def octaveFeatures : BicubicPatchFeatures :=
  ⟨octaveCornerFeatures, octaveCornerFeatures, octaveCornerFeatures, octaveCornerFeatures⟩

/-! ## Blocks and chunk-column state -/

/-- Block materials (`BLOCK_MATERIAL_*`); the set used by
`src/world_generator.cc`. -/
inductive BlockMaterial where
  | air
  | magma
  | bedrock
  | stone
  | clay
  | dirt
  | grass
  | treeTrunk
  | treeLeaf
deriving DecidableEq, Repr

/-- `ChunkHeightmap`: per in-chunk (x, z) column, the recorded height.
Modelled from the spec: a 2-D array indexed by in-chunk X and Z (in C++
an array type, so the callee's writes are visible to the caller). -/
def ChunkHeightmap : Type := ℕ → ℕ → ℕ

/-- The mutable state of one chunk column while `WorldGenerator` generates
it: the chunk vector (its length `numChunks` and the creation-time origins
of its chunks) and the block materials, addressed by in-chunk (x, z) and
absolute height y as `(x, y, z)`.  Modelled from the spec: a freshly
allocated chunk's blocks are empty (air).  `ok` is instrumentation: it
stays `true` as long as every `chunks[chunk_index]` access performed by
`WorldGenerator::get_block` was within the bounds of the chunk vector
after its single conditional `push_back`. -/
structure GenState where
  numChunks : ℕ
  chunkOrigins : List (ℤ × ℤ × ℤ)
  blocks : ℕ × ℕ × ℕ → BlockMaterial
  ok : Bool

def GenState.initial : GenState :=
  { numChunks := 0, chunkOrigins := [], blocks := fun _ => BlockMaterial.air, ok := true }

/-- The chunk-vector part of `WorldGenerator::get_block`
(src/world_generator.cc:232-243): compute `chunk_index = height / SIZE_Y`,
push one new chunk (with origin `(column_x, height, column_z)`) if the
index is past the end, then access `chunks[chunk_index]` — `ok` records
whether that access was in bounds. -/
def GenState.touch (s : GenState) (cp : ℤ × ℤ) (height : ℕ) : GenState :=
  let ci := height / Chunk.SIZE_Y
  let s1 :=
    if s.numChunks ≤ ci then
      { s with numChunks := s.numChunks + 1,
               chunkOrigins := s.chunkOrigins ++ [(cp.1, (height : ℤ), cp.2)] }
    else s
  { s1 with ok := s1.ok && decide (ci < s1.numChunks) }

/-- Reading a block through `get_block` (returns the material stored at the
addressed cell). -/
def GenState.readBlock (s : GenState) (cp : ℤ × ℤ) (x z height : ℕ) :
    GenState × BlockMaterial :=
  (s.touch cp height, s.blocks (x, height, z))

/-- `Block::set_material` on a block reference previously obtained from
`get_block`. -/
def GenState.setBlock (s : GenState) (x z height : ℕ) (m : BlockMaterial) : GenState :=
  { s with blocks := fun q => if q = (x, height, z) then m else s.blocks q }

/-- `get_block` followed by `set_material` (the write pattern of the
layering loop and the trunk writes). -/
def GenState.writeBlock (s : GenState) (cp : ℤ × ℤ) (x z height : ℕ)
    (m : BlockMaterial) : GenState :=
  (s.touch cp height).setBlock x z height m

/-! ## Per-column layering (src/world_generator.cc:76-156) -/

/-- `roundf` on exact rationals: round half away from zero. -/
def roundQ (q : Scalar) : ℤ := if 0 ≤ q then ⌊q + 1 / 2⌋ else -⌊-q + 1 / 2⌋

/-- One band's top: `unsigned( roundf( std::max( formula, bottom + 1 ) ) )`
(src/world_generator.cc:121-122). -/
def topOf (hf : Scalar) (bottom : ℕ) : ℕ :=
  (roundQ (max hf ((bottom : Scalar) + 1))).toNat

/-- The fixed ordered band list built per column
(src/world_generator.cc:105-113), as a function of `total_height`. -/
def layerList (t : Scalar) : List (BlockMaterial × Scalar) :=
  [(BlockMaterial.magma, 1),
   (BlockMaterial.bedrock, 20 + t * (1 / 4)),
   (BlockMaterial.stone, 52 + t),
   (BlockMaterial.clay, 58 + t),
   (BlockMaterial.dirt, 62 + t),
   (BlockMaterial.grass, 63 + t)]

/-- The successive band tops produced by folding `topOf` over a band list,
starting from `bottom`. -/
def bandTopsFrom : List (BlockMaterial × Scalar) → ℕ → List ℕ
  | [], _ => []
  | (_, hf) :: rest, bottom =>
    topOf hf bottom :: bandTopsFrom rest (topOf hf bottom)

/-- The final value of `bottom` after the band loop (the last band's top,
which the source records into the heightmap). -/
def bandEnd : List (BlockMaterial × Scalar) → ℕ → ℕ
  | [], bottom => bottom
  | (_, hf) :: rest, bottom => bandEnd rest (topOf hf bottom)

/-- The six band tops of one column as a function of `total_height`. -/
def bandTops (t : Scalar) : List ℕ := bandTopsFrom (layerList t) 0

/-- The normalized 3-D density-sampling position of a cell
(src/world_generator.cc:129-133): components of the relative column
position and the height, each divided by the corresponding component of
`RegionFeatures::TRILINEAR_BOX_SIZE`. -/
def boxPosition (relative : ℤ × ℤ) (y : ℕ) : Scalar × Scalar × Scalar :=
  ((relative.1 : Scalar) / (WorldGenerator.REGION_SIZE : Scalar),
    (y : Scalar) / (RegionFeatures.TRILINEAR_BOX_HEIGHT : Scalar),
    (relative.2 : Scalar) / (WorldGenerator.REGION_SIZE : Scalar))

/-- The material stored into one cell of a band
(src/world_generator.cc:135-147): magma is stored unconditionally; for any
other band material, the cell becomes air exactly when both density boxes
interpolate to a value strictly inside `(0.45, 0.55)` at the cell's
normalized position. -/
def cellMaterial (f : RegionFeatures) (relative : ℤ × ℤ) (y : ℕ)
    (material : BlockMaterial) : BlockMaterial :=
  if material = BlockMaterial.magma then material
  else
    let densityA := f.box0.interpolate (boxPosition relative y)
    let densityB := f.box1.interpolate (boxPosition relative y)
    if 9 / 20 < densityA ∧ densityA < 11 / 20 ∧ 9 / 20 < densityB ∧ densityB < 11 / 20 then
      BlockMaterial.air
    else material

/-- The inner cell loop of one band (src/world_generator.cc:124-148):
write the `n` cells starting at height `b`. -/
def writeCells (f : RegionFeatures) (cp : ℤ × ℤ) (relative : ℤ × ℤ) (x z : ℕ)
    (m : BlockMaterial) : ℕ → ℕ → GenState → GenState
  | _, 0, s => s
  | b, n + 1, s =>
    writeCells f cp relative x z m (b + 1) n
      (s.writeBlock cp x z b (cellMaterial f relative b m))

/-- The band loop of one column (src/world_generator.cc:118-151): for each
band, compute its top and write the cells from `bottom` to `top`
inclusive, then continue with `bottom := top`. -/
def runBands (f : RegionFeatures) (cp : ℤ × ℤ) (relative : ℤ × ℤ) (x z : ℕ) :
    List (BlockMaterial × Scalar) → GenState × ℕ → GenState × ℕ
  | [], sb => sb
  | (m, hf) :: rest, (s, bottom) =>
    let top := topOf hf bottom
    runBands f cp relative x z rest
      (writeCells f cp relative x z m bottom (top + 1 - bottom) s, top)

/-- The relative position of the block column at in-chunk offset `(x, z)`
(src/world_generator.cc:88). -/
def relativePosition (rp cp : ℤ × ℤ) (x z : ℕ) : ℤ × ℤ :=
  (cp.1 - rp.1 + (x : ℤ), cp.2 - rp.2 + (z : ℤ))

/-- `total_height` of one block column (src/world_generator.cc:90-103):
the fundamental patch sampled at the region-normalized position, minus the
absolute value of the octave patch sampled inside its octave cell, plus
the base offset 32. -/
def totalHeight (f : RegionFeatures) (relative : ℤ × ℤ) : Scalar :=
  let E : ℤ := RegionFeatures.BICUBIC_OCTAVE_EDGE
  let fundamental_height :=
    f.fundamental.interpolate ((relative.1 : Scalar) / (WorldGenerator.REGION_SIZE : Scalar))
      ((relative.2 : Scalar) / (WorldGenerator.REGION_SIZE : Scalar))
  let octave_patch := f.getOctavePatch (Int.tdiv relative.1 E, Int.tdiv relative.2 E)
  let octave_height :=
    |octave_patch.interpolate ((Int.tmod relative.1 E : Scalar) / (E : Scalar))
        ((Int.tmod relative.2 E : Scalar) / (E : Scalar))|
  32 + fundamental_height - octave_height

/-- The whole per-(x,z) body of the column loop: run the bands from
`bottom = 0` and return the updated state and the final `bottom`. -/
def columnPiece (f : RegionFeatures) (rp cp : ℤ × ℤ) (x z : ℕ) (s : GenState) :
    GenState × ℕ :=
  runBands f cp (relativePosition rp cp x z) x z
    (layerList (totalHeight f (relativePosition rp cp x z))) (s, 0)

/-- The in-chunk (x, z) pairs visited by the column loops
(src/world_generator.cc:84-86), x outer, z inner. -/
def allXZ : List (ℕ × ℕ) :=
  (List.range Chunk.SIZE_X).flatMap fun x => (List.range Chunk.SIZE_Z).map fun z => (x, z)

/-- The double loop of `WorldGenerator::generate_chunk_column`, threading
the chunk-column state and the heightmap. -/
def columnLoop (f : RegionFeatures) (rp cp : ℤ × ℤ) :
    List (ℕ × ℕ) → GenState × ChunkHeightmap → GenState × ChunkHeightmap
  | [], acc => acc
  | (x, z) :: rest, (s, hm) =>
    let r := columnPiece f rp cp x z s
    columnLoop f rp cp rest
      (r.1, fun a b => if a = x ∧ b = z then r.2 else hm a b)

/-- `WorldGenerator::generate_chunk_column` (src/world_generator.cc:76-156). -/
def generateChunkColumn (f : RegionFeatures) (rp cp : ℤ × ℤ) :
    GenState × ChunkHeightmap :=
  columnLoop f rp cp allXZ (GenState.initial, fun _ _ => 0)

/-! ## Vegetation pass (src/world_generator.cc:158-230) -/

/-- Tree constants (src/world_generator.cc:164-169). -/
def MIN_TREE_RADIUS : ℤ := 3

def MAX_TREE_RADIUS : ℤ := 5

def MIN_TREE_HEIGHT : ℤ := 8

def MAX_TREE_HEIGHT : ℤ := 24

def TREES_PER_CHUNK : ℕ := 1

/-- Modelled from the spec: `get_seed_for_coordinates(world_seed,
column_position)` (`random.h` is not part of `src/`) — the per-column
random-stream seed derived from the world seed and the column position. -/
def getSeedForCoordinates (world_seed : ℕ) (p : ℤ × ℤ) : ℕ := derive2 world_seed p

/-- Modelled from the spec: one step of the linear-congruential generator
behind `boost::rand48` (48-bit LCG state). -/
def rand48step (s : ℕ) : ℕ := (25214903917 * s + 11) % 2 ^ 48

/-- Modelled from the spec: the output drawn from a stepped `rand48`
state. -/
def rand48out (s : ℕ) : ℕ := s / 2 ^ 17

/-- Modelled from the spec: `boost::uniform_int<>(lo, hi)` applied to a
shared `rand48` generator — steps the generator once and maps the output
into `[lo, hi]`. -/
def uniformInt (s : ℕ) (lo hi : ℤ) : ℤ × ℕ :=
  let s1 := rand48step s
  (lo + (rand48out s1 : ℤ) % (hi + 1 - lo), s1)

theorem uniformInt_mem (s : ℕ) {lo hi : ℤ} (h : lo ≤ hi) :
    lo ≤ (uniformInt s lo hi).1 ∧ (uniformInt s lo hi).1 ≤ hi := by
  unfold uniformInt
  have hpos : (0 : ℤ) < hi + 1 - lo := by omega
  have h0 := Int.emod_nonneg (rand48out (rand48step s) : ℤ) (by omega : hi + 1 - lo ≠ 0)
  have h1 := Int.emod_lt_of_pos (rand48out (rand48step s) : ℤ) hpos
  constructor <;> simp only <;> omega

/-- The first draw of one tree attempt (src/world_generator.cc:192): the
root x offset, from the freshly seeded per-column generator. -/
def treeDrawX (world_seed : ℕ) (cp : ℤ × ℤ) : ℤ × ℕ :=
  uniformInt (getSeedForCoordinates world_seed cp) MAX_TREE_RADIUS
    ((Chunk.SIZE_X : ℤ) - MAX_TREE_RADIUS - 1)

/-- The second draw (src/world_generator.cc:193): the root z offset, from
the generator state advanced by the x draw. -/
def treeDrawZ (world_seed : ℕ) (cp : ℤ × ℤ) : ℤ × ℕ :=
  uniformInt (treeDrawX world_seed cp).2 MAX_TREE_RADIUS
    ((Chunk.SIZE_Z : ℤ) - MAX_TREE_RADIUS - 1)

/-- The third draw (src/world_generator.cc:194): the trunk height. -/
def treeDrawH (world_seed : ℕ) (cp : ℤ × ℤ) : ℤ × ℕ :=
  uniformInt (treeDrawZ world_seed cp).2 MIN_TREE_HEIGHT MAX_TREE_HEIGHT

/-- The fourth draw (src/world_generator.cc:195): the canopy radius. -/
def treeDrawR (world_seed : ℕ) (cp : ℤ × ℤ) : ℤ × ℕ :=
  uniformInt (treeDrawH world_seed cp).2 MIN_TREE_RADIUS MAX_TREE_RADIUS

/-- The four random draws of one tree attempt
(src/world_generator.cc:189-195): x, z, trunk height, canopy radius, all
drawn in order from the single shared per-column generator. -/
def treeDraws (world_seed : ℕ) (cp : ℤ × ℤ) : ℤ × ℤ × ℤ × ℤ :=
  ((treeDrawX world_seed cp).1, (treeDrawZ world_seed cp).1,
    (treeDrawH world_seed cp).1, (treeDrawR world_seed cp).1)

/-- C++ conversion of a signed int to the unsigned `get_block` parameters;
every call site is proven to pass a nonnegative in-range value, where the
conversion is the identity. -/
def u32 (i : ℤ) : ℕ := (i % (2 : ℤ) ^ 32).toNat

/-- The ascending integer list `[lo, lo+1, ..., hi]` (empty when
`hi < lo`), as iterated by the C++ `for` loops over int bounds. -/
def intRangeAux : ℕ → ℤ → List ℤ
  | 0, _ => []
  | n + 1, lo => lo :: intRangeAux n (lo + 1)

def intRange (lo hi : ℤ) : List ℤ := intRangeAux (hi + 1 - lo).toNat lo

/-- The innermost leaf loop over `v` (src/world_generator.cc:213-224):
at each neighbor cell, read the block and write leaf material only if the
cell currently holds air. -/
def leafLoopV (cp : ℤ × ℤ) (x z u : ℤ) (h : ℕ) :
    List ℤ → GenState → GenState
  | [], s => s
  | v :: rest, s =>
    let s1 :=
      if u ≠ 0 ∨ v ≠ 0 then
        let rb := s.readBlock cp (u32 (x + u)) (u32 (z + v)) h
        if rb.2 = BlockMaterial.air then
          rb.1.setBlock (u32 (x + u)) (u32 (z + v)) h BlockMaterial.treeLeaf
        else rb.1
      else s
    leafLoopV cp x z u h rest s1

/-- The leaf loop over `u` (src/world_generator.cc:211-225). -/
def leafLoopU (cp : ℤ × ℤ) (x z : ℤ) (h : ℕ) (vs : List ℤ) :
    List ℤ → GenState → GenState
  | [], s => s
  | u :: rest, s => leafLoopU cp x z h vs rest (leafLoopV cp x z u h vs s)

/-- The trunk loop (src/world_generator.cc:202-227): write a trunk block at
each level, and above `height - radius - 1` also run the shrinking canopy
loops. -/
def trunkLoop (cp : ℤ × ℤ) (x z : ℤ) (bottom : ℕ) (height radius : ℤ) :
    List ℤ → GenState → GenState
  | [], s => s
  | y :: rest, s =>
    let s1 := s.writeBlock cp (u32 x) (u32 z) (bottom + y.toNat) BlockMaterial.treeTrunk
    let leaf_height := y - (height - radius - 1)
    let s2 :=
      if 0 ≤ leaf_height then
        leafLoopU cp x z (bottom + y.toNat)
          (intRange (-radius + leaf_height) (radius - leaf_height))
          (intRange (-radius + leaf_height) (radius - leaf_height)) s1
      else s1
    trunkLoop cp x z bottom height radius rest s2

/-- `WorldGenerator::populate_trees` (src/world_generator.cc:158-230) for
the single tree attempt (`TREES_PER_CHUNK = 1`): draw the root offsets,
trunk height and canopy radius; look up the column's recorded height; and
only if the block read there holds grass, grow the trunk and canopy. -/
def populateTrees (world_seed : ℕ) (s : GenState) (cp : ℤ × ℤ)
    (heights : ChunkHeightmap) : GenState :=
  let d := treeDraws world_seed cp
  let x := d.1
  let z := d.2.1
  let height := d.2.2.1
  let radius := d.2.2.2
  let bottom := heights (u32 x) (u32 z)
  let rb := s.readBlock cp (u32 x) (u32 z) bottom
  if rb.2 = BlockMaterial.grass then
    trunkLoop cp x z bottom height radius (intRange 1 (height - 1)) rb.1
  else rb.1

/-! ## Region assembly (src/world_generator.cc:24-74) -/

/-- A generated chunk: its origin as recorded at creation and its dense
block buffer (in-chunk coordinates). Modelled from the spec: the fixed-size
3-D block buffer handed to world storage. -/
structure Chunk where
  origin : ℤ × ℤ × ℤ
  blocks : ℕ × ℕ × ℕ → BlockMaterial

/-- The chunk at vertical index `i` of a finished column state. -/
def GenState.chunkAt (s : GenState) (i : ℕ) : Chunk :=
  { origin := s.chunkOrigins.getD i (0, 0, 0)
    blocks := fun q => s.blocks (q.1, Chunk.SIZE_Y * i + q.2.1, q.2.2) }

/-- The chunk vector handed back for one column. -/
def GenState.toChunks (s : GenState) : List Chunk :=
  (List.range s.numChunks).map s.chunkAt

/-- The final state of one column of the region: layering followed by the
vegetation pass, as called from `WorldGenerator::generate_region`
(src/world_generator.cc:64-68). -/
def columnState (world_seed : ℕ) (f : RegionFeatures) (rp cp : ℤ × ℤ) : GenState :=
  let r := generateChunkColumn f rp cp
  populateTrees world_seed r.1 cp r.2

/-- `WorldGenerator::generate_region` (src/world_generator.cc:24-74):
build the region features, generate every chunk column of the region
(x outer, z inner), and concatenate the resulting chunk vectors. -/
def generateRegion (world_seed : ℕ) (position : ℤ × ℤ) : List Chunk :=
  let features := RegionFeatures.build world_seed position fundamentalFeatures octaveFeatures
  (List.range (WorldGenerator.CHUNKS_PER_REGION_EDGE).1).flatMap fun x =>
    (List.range (WorldGenerator.CHUNKS_PER_REGION_EDGE).2).flatMap fun z =>
      let cp := (position.1 + (x * Chunk.SIZE_X : ℕ), position.2 + (z * Chunk.SIZE_Z : ℕ))
      (columnState world_seed features position cp).toChunks

/-- `WorldGenerator` (its only member is the immutable `world_seed_`). -/
structure WorldGenerator where
  world_seed : ℕ

/-- The method call `WorldGenerator::generate_region`, with the object
state threaded explicitly: the call returns the chunk vector and leaves
the generator state unchanged (the C++ method reads only `world_seed_`). -/
def WorldGenerator.generate_region (g : WorldGenerator) (position : ℤ × ℤ) :
    WorldGenerator × List Chunk :=
  (g, generateRegion g.world_seed position)

/-- One step of a generation session: invoke `generate_region` on the
current generator object and append the returned chunk list. -/
def sessionStep (acc : WorldGenerator × List (List Chunk)) (p : ℤ × ℤ) :
    WorldGenerator × List (List Chunk) :=
  let r := acc.1.generate_region p
  (r.1, acc.2 ++ [r.2])

/-- A sequence of `generate_region` invocations on one generator object,
collecting the outputs in call order. -/
def runSession (g : WorldGenerator) (ps : List (ℤ × ℤ)) :
    WorldGenerator × List (List Chunk) :=
  ps.foldl sessionStep (g, [])

/-! ## Helper lemmas on band tops -/

theorem topOf_gt (hf : Scalar) (b : ℕ) : b < topOf hf b := by
  unfold topOf
  have h1 : ((b : Scalar) + 1) ≤ max hf ((b : Scalar) + 1) := le_max_right _ _
  have h2 : ((b : ℤ) + 1) ≤ roundQ (max hf ((b : Scalar) + 1)) := by
    unfold roundQ
    have hnn : (0 : Scalar) ≤ max hf ((b : Scalar) + 1) := le_trans (by positivity) h1
    rw [if_pos hnn, Int.le_floor]
    push_cast
    linarith
  omega

theorem bandTopsFrom_head (ls : List (BlockMaterial × Scalar)) (b : ℕ) :
    ∀ y ∈ (bandTopsFrom ls b).head?, b < y := by
  cases ls with
  | nil => simp [bandTopsFrom]
  | cons hd tl =>
    simp [bandTopsFrom]
    exact topOf_gt hd.2 b

theorem bandTopsFrom_chain (ls : List (BlockMaterial × Scalar)) :
    ∀ b : ℕ, List.Chain' (· < ·) (bandTopsFrom ls b) := by
  induction ls with
  | nil => intro b; simp [bandTopsFrom]
  | cons hd tl ih =>
    intro b
    simp only [bandTopsFrom]
    exact List.chain'_cons'.mpr ⟨bandTopsFrom_head tl (topOf hd.2 b), ih (topOf hd.2 b)⟩

/-- `bandEnd` is the last entry of `bandTopsFrom` (or the start value for an
empty band list). -/
theorem bandEnd_eq_getLast (ls : List (BlockMaterial × Scalar)) :
    ∀ b : ℕ, bandEnd ls b = (bandTopsFrom ls b).getLastD b := by
  induction ls with
  | nil => intro b; simp [bandEnd, bandTopsFrom]
  | cons hd tl ih =>
    intro b
    simp only [bandEnd, bandTopsFrom]
    rw [ih]
    cases htl : bandTopsFrom tl (topOf hd.2 b) with
    | nil => simp [List.getLastD]
    | cons a l => simp [List.getLastD]

theorem bandEnd_ge (ls : List (BlockMaterial × Scalar)) :
    ∀ b : ℕ, b ≤ bandEnd ls b := by
  induction ls with
  | nil => intro b; simp [bandEnd]
  | cons hd tl ih =>
    intro b
    simp only [bandEnd]
    exact le_trans (topOf_gt hd.2 b).le (ih _)

/-! ### C3 -/

/-- **C3**: for every `total_height` (arbitrary rational, covering extremes
like -1000 and +1000), the six band tops computed by the layering step
form a strictly increasing sequence — in particular non-decreasing, with
no band inversion and no zero-thickness band (each top also strictly
exceeds the initial bottom 0). -/
theorem band_tops_monotone (t : Scalar) :
    List.Chain' (· < ·) (bandTops t) ∧ ∀ y ∈ (bandTops t).head?, 0 < y := by
  exact ⟨bandTopsFrom_chain (layerList t) 0, bandTopsFrom_head (layerList t) 0⟩

/-! ### C9 -/

/-- **C9**: `BicubicPatch.interpolate` evaluated at the four unit-square
corners `(0,0)`, `(1,0)`, `(1,1)`, `(0,1)` returns exactly the seeded
value of each corner. -/
theorem bicubic_corner_exactness (seed : ℕ) (anchor size : ℤ × ℤ)
    (f : BicubicPatchFeatures) :
    ((BicubicPatch.build seed anchor size f).interpolate 0 0
        = cornerValue seed anchor f.f00.heightRange)
    ∧ ((BicubicPatch.build seed anchor size f).interpolate 1 0
        = cornerValue seed (anchor.1 + size.1, anchor.2) f.f10.heightRange)
    ∧ ((BicubicPatch.build seed anchor size f).interpolate 1 1
        = cornerValue seed (anchor.1 + size.1, anchor.2 + size.2) f.f11.heightRange)
    ∧ ((BicubicPatch.build seed anchor size f).interpolate 0 1
        = cornerValue seed (anchor.1, anchor.2 + size.2) f.f01.heightRange) := by
  norm_num [BicubicPatch.interpolate, BicubicPatch.build, smoothstep, lerp]

/-! ### C2 -/

/-- The fundamental patch built for the region anchored at `position`, with
the corner features fixed in `WorldGenerator::generate_region`. -/
def regionFundamentalPatch (world_seed : ℕ) (position : ℤ × ℤ) : BicubicPatch :=
  (RegionFeatures.build world_seed position fundamentalFeatures octaveFeatures).fundamental

/-- **C2**: for every seed and every pair of adjacent regions (x-adjacent
and z-adjacent), the fundamental bicubic patches built independently for
the two regions agree exactly at every shared boundary coordinate:
`interpolate` sampled along the shared edge yields the same height from
either patch. -/
theorem fundamental_patch_seam (world_seed : ℕ) (position : ℤ × ℤ) (t : Scalar)
    (_h0 : 0 ≤ t) (_h1 : t ≤ 1) :
    ((regionFundamentalPatch world_seed position).interpolate 1 t
      = (regionFundamentalPatch world_seed
          (position.1 + (WorldGenerator.REGION_SIZE : ℤ), position.2)).interpolate 0 t)
    ∧ ((regionFundamentalPatch world_seed position).interpolate t 1
      = (regionFundamentalPatch world_seed
          (position.1, position.2 + (WorldGenerator.REGION_SIZE : ℤ))).interpolate t 0) := by
  constructor <;>
    norm_num [regionFundamentalPatch, RegionFeatures.build, BicubicPatch.build,
      BicubicPatch.interpolate, fundamentalFeatures, smoothstep, lerp]

theorem fundamental_patch_seam_witness :
    (0 : Scalar) ≤ 1 / 2 ∧ (1 / 2 : Scalar) ≤ 1 ∧
      ((regionFundamentalPatch 7 (0, 0)).interpolate 1 (1 / 2)
        = (regionFundamentalPatch 7 (64, 0)).interpolate 0 (1 / 2)) := by
  refine ⟨by norm_num, by norm_num, ?_⟩
  exact (fundamental_patch_seam 7 (0, 0) (1 / 2) (by norm_num) (by norm_num)).1

/-! ### C4 -/

/-- **C4**: during layering, a cell whose band material is not magma is set
to air exactly when both density boxes interpolate to a value strictly
inside `(0.45, 0.55)` at the cell's normalized position (otherwise the
cell keeps the band material), and every cell of the magma band receives
magma unconditionally. -/
theorem cell_carving_iff (f : RegionFeatures) (relative : ℤ × ℤ) (y : ℕ) (t : Scalar)
    (m : BlockMaterial) (hm : m ∈ (layerList t).map Prod.fst)
    (hnm : m ≠ BlockMaterial.magma) :
    (cellMaterial f relative y m = BlockMaterial.air ↔
      (9 / 20 < f.box0.interpolate (boxPosition relative y)
        ∧ f.box0.interpolate (boxPosition relative y) < 11 / 20
        ∧ 9 / 20 < f.box1.interpolate (boxPosition relative y)
        ∧ f.box1.interpolate (boxPosition relative y) < 11 / 20))
    ∧ cellMaterial f relative y BlockMaterial.magma = BlockMaterial.magma := by
  have hair : m ≠ BlockMaterial.air := by
    fin_cases hm <;> simp_all
  refine ⟨?_, by simp [cellMaterial]⟩
  simp only [cellMaterial, if_neg hnm]
  split
  case isTrue h => exact iff_of_true rfl h
  case isFalse h => exact iff_of_false hair h

/-- A concrete `RegionFeatures` value with flat height fields and both
density boxes constantly `1/2` (inside the carving window); an explicit
input for counterexamples and witnesses. -/
def carveFeatures : RegionFeatures :=
  { fundamental := constPatch 0
    octave00 := constPatch 0
    octave01 := constPatch 0
    octave10 := constPatch 0
    octave11 := constPatch 0
    box0 := constBox (1 / 2)
    box1 := constBox (1 / 2) }

theorem cell_carving_iff_witness :
    BlockMaterial.stone ∈ (layerList 0).map Prod.fst ∧
      BlockMaterial.stone ≠ BlockMaterial.magma ∧
      cellMaterial carveFeatures (0, 0) 0 BlockMaterial.stone = BlockMaterial.air := by
  refine ⟨by simp [layerList], by simp, ?_⟩
  have h := (cell_carving_iff carveFeatures (0, 0) 0 0 BlockMaterial.stone
    (by simp [layerList]) (by simp)).1
  rw [h]
  norm_num [carveFeatures, constBox_interpolate]

/-! ### C1 -/

theorem runSession_outputs (g : WorldGenerator) :
    ∀ (ps : List (ℤ × ℤ)) (acc : List (List Chunk)),
      (ps.foldl sessionStep (g, acc)).2
        = acc ++ ps.map (generateRegion g.world_seed) := by
  intro ps
  induction ps with
  | nil => intro acc; simp
  | cons p rest ih =>
    intro acc
    rw [List.foldl_cons]
    have hstep : sessionStep (g, acc) p = (g, acc ++ [generateRegion g.world_seed p]) := by
      simp [sessionStep, WorldGenerator.generate_region]
    rw [hstep, ih]
    simp

/-- **C1**: for every 64-bit seed and every region position, two independent
invocations of `WorldGenerator::generate_region` with the same seed and
position — after arbitrary and different histories of prior region
generations on each generator object — produce identical output: the same
chunk list with the same origins and identical block materials. -/
theorem generate_region_deterministic (seed : ℕ) (prior1 prior2 : List (ℤ × ℤ))
    (p : ℤ × ℤ) :
    (runSession ⟨seed⟩ (prior1 ++ [p])).2.getLast? = some (generateRegion seed p)
    ∧ (runSession ⟨seed⟩ (prior2 ++ [p])).2.getLast?
        = (runSession ⟨seed⟩ (prior1 ++ [p])).2.getLast? := by
  have key : ∀ prior : List (ℤ × ℤ),
      (runSession ⟨seed⟩ (prior ++ [p])).2.getLast? = some (generateRegion seed p) := by
    intro prior
    unfold runSession
    rw [runSession_outputs ⟨seed⟩ (prior ++ [p]) []]
    simp [List.getLast?_concat]
  exact ⟨key prior1, (key prior2).trans (key prior1).symm⟩

/-! ### C8 -/

theorem cornerValue_mem (seed : ℕ) (p : ℤ × ℤ) {lo hi : Scalar} (h : lo ≤ hi) :
    lo ≤ cornerValue seed p (lo, hi) ∧ cornerValue seed p (lo, hi) ≤ hi :=
  nextUniform_mem _ h

theorem build_interpolate_mem (seed : ℕ) (anchor size : ℤ × ℤ)
    (ft : BicubicPatchFeatures) {lo hi : Scalar} (h : lo ≤ hi)
    (hr : ft.f00.heightRange = (lo, hi) ∧ ft.f10.heightRange = (lo, hi)
      ∧ ft.f01.heightRange = (lo, hi) ∧ ft.f11.heightRange = (lo, hi))
    {u v : Scalar} (hu : 0 ≤ u ∧ u ≤ 1) (hv : 0 ≤ v ∧ v ≤ 1) :
    lo ≤ (BicubicPatch.build seed anchor size ft).interpolate u v
    ∧ (BicubicPatch.build seed anchor size ft).interpolate u v ≤ hi := by
  refine interpolate_mem ?_ ?_ ?_ ?_ hu hv <;>
    simp only [BicubicPatch.build, hr.1, hr.2.1, hr.2.2.1, hr.2.2.2] <;>
    exact cornerValue_mem _ _ h

theorem built_fundamental_mem (world_seed : ℕ) (position : ℤ × ℤ)
    {u v : Scalar} (hu : 0 ≤ u ∧ u ≤ 1) (hv : 0 ≤ v ∧ v ≤ 1) :
    0 ≤ (RegionFeatures.build world_seed position fundamentalFeatures
          octaveFeatures).fundamental.interpolate u v
    ∧ (RegionFeatures.build world_seed position fundamentalFeatures
          octaveFeatures).fundamental.interpolate u v ≤ 128 := by
  simp only [RegionFeatures.build]
  exact build_interpolate_mem _ _ _ _ (by norm_num)
    (by simp [fundamentalFeatures, fundamentalCornerFeatures]) hu hv

theorem built_octave_mem (world_seed : ℕ) (position : ℤ × ℤ) (idx : ℤ × ℤ)
    {u v : Scalar} (hu : 0 ≤ u ∧ u ≤ 1) (hv : 0 ≤ v ∧ v ≤ 1) :
    -32 ≤ ((RegionFeatures.build world_seed position fundamentalFeatures
          octaveFeatures).getOctavePatch idx).interpolate u v
    ∧ ((RegionFeatures.build world_seed position fundamentalFeatures
          octaveFeatures).getOctavePatch idx).interpolate u v ≤ 32 := by
  have hoct : ∀ anchor : ℤ × ℤ,
      -32 ≤ (BicubicPatch.build (world_seed ^^^ 0xfea873529eaf) anchor (32, 32)
              octaveFeatures).interpolate u v
      ∧ (BicubicPatch.build (world_seed ^^^ 0xfea873529eaf) anchor (32, 32)
              octaveFeatures).interpolate u v ≤ 32 := by
    intro anchor
    exact build_interpolate_mem _ _ _ _ (by norm_num)
      (by simp [octaveFeatures, octaveCornerFeatures]) hu hv
  simp only [RegionFeatures.getOctavePatch, RegionFeatures.build,
    RegionFeatures.BICUBIC_OCTAVE_EDGE]
  split_ifs <;> exact hoct _

theorem totalHeight_mem (world_seed : ℕ) (position : ℤ × ℤ) {rel : ℤ × ℤ}
    (h1 : 0 ≤ rel.1 ∧ rel.1 ≤ 63) (h2 : 0 ≤ rel.2 ∧ rel.2 ≤ 63) :
    0 ≤ totalHeight (RegionFeatures.build world_seed position fundamentalFeatures
          octaveFeatures) rel
    ∧ totalHeight (RegionFeatures.build world_seed position fundamentalFeatures
          octaveFeatures) rel ≤ 160 := by
  have hdiv : ∀ a : ℤ, 0 ≤ a → a ≤ 63 →
      0 ≤ (a : Scalar) / (WorldGenerator.REGION_SIZE : Scalar)
      ∧ (a : Scalar) / (WorldGenerator.REGION_SIZE : Scalar) ≤ 1 := by
    intro a ha hb
    have ha' : (0 : Scalar) ≤ (a : Scalar) := by exact_mod_cast ha
    have hb' : (a : Scalar) ≤ 63 := by exact_mod_cast hb
    constructor
    · simp only [WorldGenerator.REGION_SIZE]; push_cast; linarith
    · simp only [WorldGenerator.REGION_SIZE]; push_cast; linarith
  have hmod : ∀ a : ℤ, 0 ≤ a →
      0 ≤ ((Int.tmod a (RegionFeatures.BICUBIC_OCTAVE_EDGE : ℤ)) : Scalar)
            / ((RegionFeatures.BICUBIC_OCTAVE_EDGE : ℤ) : Scalar)
      ∧ ((Int.tmod a (RegionFeatures.BICUBIC_OCTAVE_EDGE : ℤ)) : Scalar)
            / ((RegionFeatures.BICUBIC_OCTAVE_EDGE : ℤ) : Scalar) ≤ 1 := by
    intro a ha
    simp only [RegionFeatures.BICUBIC_OCTAVE_EDGE]
    rw [Int.tmod_eq_emod ha (by norm_num)]
    have hm0 : 0 ≤ a % 32 := Int.emod_nonneg _ (by norm_num)
    have hm1 : a % 32 < 32 := Int.emod_lt_of_pos _ (by norm_num)
    have hm0' : (0 : Scalar) ≤ ((a % 32 : ℤ) : Scalar) := by exact_mod_cast hm0
    have hm1' : ((a % 32 : ℤ) : Scalar) ≤ 32 := by exact_mod_cast hm1.le
    constructor <;> push_cast <;> push_cast at hm0' hm1' <;> [linarith; linarith]
  have hfund := built_fundamental_mem world_seed position
    (hdiv rel.1 h1.1 h1.2) (hdiv rel.2 h2.1 h2.2)
  have hoct := built_octave_mem world_seed position
    (Int.tdiv rel.1 (RegionFeatures.BICUBIC_OCTAVE_EDGE : ℤ),
      Int.tdiv rel.2 (RegionFeatures.BICUBIC_OCTAVE_EDGE : ℤ))
    (hmod rel.1 h1.1) (hmod rel.2 h2.1)
  have habs : |((RegionFeatures.build world_seed position fundamentalFeatures
        octaveFeatures).getOctavePatch
          (Int.tdiv rel.1 (RegionFeatures.BICUBIC_OCTAVE_EDGE : ℤ),
            Int.tdiv rel.2 (RegionFeatures.BICUBIC_OCTAVE_EDGE : ℤ))).interpolate
          (((Int.tmod rel.1 (RegionFeatures.BICUBIC_OCTAVE_EDGE : ℤ)) : Scalar)
            / ((RegionFeatures.BICUBIC_OCTAVE_EDGE : ℤ) : Scalar))
          (((Int.tmod rel.2 (RegionFeatures.BICUBIC_OCTAVE_EDGE : ℤ)) : Scalar)
            / ((RegionFeatures.BICUBIC_OCTAVE_EDGE : ℤ) : Scalar))| ≤ 32 :=
    abs_le.mpr ⟨hoct.1, hoct.2⟩
  have habs0 : (0 : Scalar) ≤ |((RegionFeatures.build world_seed position
        fundamentalFeatures octaveFeatures).getOctavePatch
          (Int.tdiv rel.1 (RegionFeatures.BICUBIC_OCTAVE_EDGE : ℤ),
            Int.tdiv rel.2 (RegionFeatures.BICUBIC_OCTAVE_EDGE : ℤ))).interpolate
          (((Int.tmod rel.1 (RegionFeatures.BICUBIC_OCTAVE_EDGE : ℤ)) : Scalar)
            / ((RegionFeatures.BICUBIC_OCTAVE_EDGE : ℤ) : Scalar))
          (((Int.tmod rel.2 (RegionFeatures.BICUBIC_OCTAVE_EDGE : ℤ)) : Scalar)
            / ((RegionFeatures.BICUBIC_OCTAVE_EDGE : ℤ) : Scalar))| :=
    abs_nonneg _
  unfold totalHeight
  constructor
  · simp only; linarith [hfund.1]
  · simp only; linarith [hfund.2]

theorem roundQ_le {q : Scalar} {n : ℤ} (hn : 0 ≤ n) (h : q ≤ (n : Scalar)) :
    roundQ q ≤ n := by
  unfold roundQ
  split
  · have hmono : ⌊q + 1 / 2⌋ ≤ ⌊(n : Scalar) + 1 / 2⌋ := Int.floor_mono (by linarith)
    have heq : ⌊(n : Scalar) + 1 / 2⌋ = n := by
      rw [add_comm, Int.floor_add_int]
      norm_num
    omega
  · have hq : (0 : Scalar) < -q + 1 / 2 := by
      rename_i hneg
      push_neg at hneg
      linarith
    have : (0 : ℤ) ≤ ⌊-q + 1 / 2⌋ := Int.le_floor.mpr (by push_cast; linarith)
    omega

theorem topOf_le {hf : Scalar} {b C : ℕ} (h1 : hf ≤ (C : Scalar)) (h2 : b + 1 ≤ C) :
    topOf hf b ≤ C := by
  unfold topOf
  have hmax : max hf ((b : Scalar) + 1) ≤ (((C : ℤ)) : Scalar) := by
    apply max_le
    · push_cast; exact h1
    · have : ((b : Scalar) + 1) ≤ (C : Scalar) := by exact_mod_cast h2
      push_cast
      linarith
  have := roundQ_le (n := (C : ℤ)) (by positivity) hmax
  omega

/-- With `total_height ≤ 160` (the bound produced by the built features),
the final band top stays below the trilinear box's vertical extent. -/
theorem bandEnd_layer_le {t : Scalar} (ht : t ≤ 160) :
    bandEnd (layerList t) 0 ≤ 223 := by
  have hb1 : topOf 1 0 ≤ 2 := topOf_le (by norm_num) (by norm_num)
  have hb2 : topOf (20 + t * (1 / 4)) (topOf 1 0) ≤ 60 :=
    topOf_le (by push_cast; linarith) (by omega)
  have hb3 : topOf (52 + t) (topOf (20 + t * (1 / 4)) (topOf 1 0)) ≤ 212 :=
    topOf_le (by push_cast; linarith) (by omega)
  have hb4 : topOf (58 + t) (topOf (52 + t) (topOf (20 + t * (1 / 4)) (topOf 1 0))) ≤ 218 :=
    topOf_le (by push_cast; linarith) (by omega)
  have hb5 : topOf (62 + t) (topOf (58 + t) (topOf (52 + t)
      (topOf (20 + t * (1 / 4)) (topOf 1 0)))) ≤ 222 :=
    topOf_le (by push_cast; linarith) (by omega)
  have hb6 : topOf (63 + t) (topOf (62 + t) (topOf (58 + t) (topOf (52 + t)
      (topOf (20 + t * (1 / 4)) (topOf 1 0))))) ≤ 223 :=
    topOf_le (by push_cast; linarith) (by omega)
  simpa [bandEnd, layerList] using hb6

/-- **C8**: every sampling call issued while generating a column of a
region passes a position inside the declared normalized domain — the
fundamental-patch position and the octave-patch position lie in `[0,1]^2`,
and for every vertical cell reached by the band loops (heights `0` through
the final band top) the density-box position lies in `[0,1]^3`. -/
theorem sampling_positions_in_domain (world_seed : ℕ) (position : ℤ × ℤ)
    (cx cz x z : ℕ) (hcx : cx < WorldGenerator.CHUNKS_PER_REGION_EDGE.1)
    (hcz : cz < WorldGenerator.CHUNKS_PER_REGION_EDGE.2)
    (hx : x < Chunk.SIZE_X) (hz : z < Chunk.SIZE_Z) :
    let f := RegionFeatures.build world_seed position fundamentalFeatures octaveFeatures
    let cp : ℤ × ℤ := (position.1 + (cx * Chunk.SIZE_X : ℕ), position.2 + (cz * Chunk.SIZE_Z : ℕ))
    let rel := relativePosition position cp x z
    let E : ℤ := RegionFeatures.BICUBIC_OCTAVE_EDGE
    (0 ≤ (rel.1 : Scalar) / (WorldGenerator.REGION_SIZE : Scalar)
      ∧ (rel.1 : Scalar) / (WorldGenerator.REGION_SIZE : Scalar) ≤ 1)
    ∧ (0 ≤ (rel.2 : Scalar) / (WorldGenerator.REGION_SIZE : Scalar)
      ∧ (rel.2 : Scalar) / (WorldGenerator.REGION_SIZE : Scalar) ≤ 1)
    ∧ (0 ≤ ((Int.tmod rel.1 E : ℤ) : Scalar) / (E : Scalar)
      ∧ ((Int.tmod rel.1 E : ℤ) : Scalar) / (E : Scalar) ≤ 1)
    ∧ (0 ≤ ((Int.tmod rel.2 E : ℤ) : Scalar) / (E : Scalar)
      ∧ ((Int.tmod rel.2 E : ℤ) : Scalar) / (E : Scalar) ≤ 1)
    ∧ ∀ y : ℕ, y ≤ bandEnd (layerList (totalHeight f rel)) 0 →
        (0 ≤ (boxPosition rel y).1 ∧ (boxPosition rel y).1 ≤ 1)
        ∧ (0 ≤ (boxPosition rel y).2.1 ∧ (boxPosition rel y).2.1 ≤ 1)
        ∧ (0 ≤ (boxPosition rel y).2.2 ∧ (boxPosition rel y).2.2 ≤ 1) := by
  intro f cp rel E
  have hrelEq : rel = (((cx * Chunk.SIZE_X + x : ℕ) : ℤ), ((cz * Chunk.SIZE_Z + z : ℕ) : ℤ)) := by
    show relativePosition position cp x z = _
    show relativePosition position
      (position.1 + (cx * Chunk.SIZE_X : ℕ), position.2 + (cz * Chunk.SIZE_Z : ℕ)) x z = _
    simp only [relativePosition, Prod.mk.injEq]
    constructor <;> push_cast <;> ring
  have hcx' : cx ≤ 3 := by
    have h := hcx
    norm_num [WorldGenerator.CHUNKS_PER_REGION_EDGE, WorldGenerator.REGION_SIZE,
      Chunk.SIZE_X] at h
    omega
  have hcz' : cz ≤ 3 := by
    have h := hcz
    norm_num [WorldGenerator.CHUNKS_PER_REGION_EDGE, WorldGenerator.REGION_SIZE,
      Chunk.SIZE_Z] at h
    omega
  have hx' : x ≤ 15 := by
    have h := hx
    norm_num [Chunk.SIZE_X] at h
    omega
  have hz' : z ≤ 15 := by
    have h := hz
    norm_num [Chunk.SIZE_Z] at h
    omega
  have hrel1 : 0 ≤ rel.1 ∧ rel.1 ≤ 63 := by
    rw [hrelEq]
    simp only [Chunk.SIZE_X]
    omega
  have hrel2 : 0 ≤ rel.2 ∧ rel.2 ≤ 63 := by
    rw [hrelEq]
    simp only [Chunk.SIZE_Z]
    omega
  have hdiv : ∀ a : ℤ, 0 ≤ a → a ≤ 63 →
      0 ≤ (a : Scalar) / (WorldGenerator.REGION_SIZE : Scalar)
      ∧ (a : Scalar) / (WorldGenerator.REGION_SIZE : Scalar) ≤ 1 := by
    intro a ha hb
    have ha' : (0 : Scalar) ≤ (a : Scalar) := by exact_mod_cast ha
    have hb' : (a : Scalar) ≤ 63 := by exact_mod_cast hb
    simp only [WorldGenerator.REGION_SIZE]
    constructor <;> push_cast <;> linarith
  have hmod : ∀ a : ℤ, 0 ≤ a →
      0 ≤ ((Int.tmod a E : ℤ) : Scalar) / (E : Scalar)
      ∧ ((Int.tmod a E : ℤ) : Scalar) / (E : Scalar) ≤ 1 := by
    intro a ha
    simp only [E, RegionFeatures.BICUBIC_OCTAVE_EDGE]
    rw [Int.tmod_eq_emod ha (by norm_num)]
    have hm0 : 0 ≤ a % 32 := Int.emod_nonneg _ (by norm_num)
    have hm1 : a % 32 < 32 := Int.emod_lt_of_pos _ (by norm_num)
    have hm0' : (0 : Scalar) ≤ ((a % 32 : ℤ) : Scalar) := by exact_mod_cast hm0
    have hm1' : ((a % 32 : ℤ) : Scalar) ≤ 32 := by exact_mod_cast hm1.le
    constructor <;> push_cast <;> push_cast at hm0' hm1' <;> linarith
  refine ⟨hdiv rel.1 hrel1.1 hrel1.2, hdiv rel.2 hrel2.1 hrel2.2,
    hmod rel.1 hrel1.1, hmod rel.2 hrel2.1, ?_⟩
  intro y hy
  have htot := totalHeight_mem world_seed position hrel1 hrel2
  have hband : bandEnd (layerList (totalHeight f rel)) 0 ≤ 223 :=
    bandEnd_layer_le htot.2
  have hy' : (y : Scalar) ≤ 223 := by
    have : y ≤ 223 := le_trans hy hband
    exact_mod_cast this
  have hy0 : (0 : Scalar) ≤ (y : Scalar) := by positivity
  refine ⟨hdiv rel.1 hrel1.1 hrel1.2, ?_, hdiv rel.2 hrel2.1 hrel2.2⟩
  simp only [boxPosition, RegionFeatures.TRILINEAR_BOX_HEIGHT]
  constructor <;> push_cast <;> linarith

theorem sampling_positions_in_domain_witness :
    0 < WorldGenerator.CHUNKS_PER_REGION_EDGE.1
    ∧ 0 < WorldGenerator.CHUNKS_PER_REGION_EDGE.2
    ∧ 0 < Chunk.SIZE_X ∧ 0 < Chunk.SIZE_Z
    ∧ (0 ≤ ((relativePosition (0, 0) (0, 0) 0 0).1 : Scalar)
          / (WorldGenerator.REGION_SIZE : Scalar)
      ∧ ((relativePosition (0, 0) (0, 0) 0 0).1 : Scalar)
          / (WorldGenerator.REGION_SIZE : Scalar) ≤ 1) := by
  refine ⟨by norm_num [WorldGenerator.CHUNKS_PER_REGION_EDGE, WorldGenerator.REGION_SIZE,
    Chunk.SIZE_X, Chunk.SIZE_Z],
    by norm_num [WorldGenerator.CHUNKS_PER_REGION_EDGE, WorldGenerator.REGION_SIZE,
      Chunk.SIZE_X, Chunk.SIZE_Z],
    by norm_num [Chunk.SIZE_X], by norm_num [Chunk.SIZE_Z], ?_⟩
  have h := sampling_positions_in_domain 0 (0, 0) 0 0 0 0
    (by norm_num [WorldGenerator.CHUNKS_PER_REGION_EDGE, WorldGenerator.REGION_SIZE,
      Chunk.SIZE_X])
    (by norm_num [WorldGenerator.CHUNKS_PER_REGION_EDGE, WorldGenerator.REGION_SIZE,
      Chunk.SIZE_Z])
    (by norm_num [Chunk.SIZE_X]) (by norm_num [Chunk.SIZE_Z])
  exact h.1

/-! ## State lemmas for the chunk-column machinery -/

theorem touch_blocks (s : GenState) (cp : ℤ × ℤ) (h : ℕ) :
    (s.touch cp h).blocks = s.blocks := by
  unfold GenState.touch
  dsimp only
  split <;> rfl

theorem touch_safe (s : GenState) (cp : ℤ × ℤ) (h : ℕ)
    (hok : s.ok = true) (hle : h / Chunk.SIZE_Y ≤ s.numChunks) :
    (s.touch cp h).ok = true
    ∧ h / Chunk.SIZE_Y < (s.touch cp h).numChunks
    ∧ s.numChunks ≤ (s.touch cp h).numChunks := by
  unfold GenState.touch
  dsimp only
  split
  · simp only [Bool.and_eq_true, decide_eq_true_eq]
    refine ⟨⟨hok, ?_⟩, ?_, ?_⟩ <;> omega
  · rename_i hlt
    push_neg at hlt
    simp only [Bool.and_eq_true, decide_eq_true_eq]
    exact ⟨⟨hok, hlt⟩, hlt, le_refl _⟩

theorem setBlock_fields (s : GenState) (x z h : ℕ) (m : BlockMaterial) :
    (s.setBlock x z h m).ok = s.ok ∧ (s.setBlock x z h m).numChunks = s.numChunks :=
  ⟨rfl, rfl⟩

theorem setBlock_blocks (s : GenState) (x z h : ℕ) (m : BlockMaterial) (q : ℕ × ℕ × ℕ) :
    (s.setBlock x z h m).blocks q = if q = (x, h, z) then m else s.blocks q := rfl

theorem writeBlock_safe (s : GenState) (cp : ℤ × ℤ) (x z h : ℕ) (m : BlockMaterial)
    (hok : s.ok = true) (hle : h / Chunk.SIZE_Y ≤ s.numChunks) :
    (s.writeBlock cp x z h m).ok = true
    ∧ h / Chunk.SIZE_Y < (s.writeBlock cp x z h m).numChunks
    ∧ s.numChunks ≤ (s.writeBlock cp x z h m).numChunks :=
  touch_safe s cp h hok hle

theorem writeBlock_blocks (s : GenState) (cp : ℤ × ℤ) (x z h : ℕ) (m : BlockMaterial)
    (q : ℕ × ℕ × ℕ) :
    (s.writeBlock cp x z h m).blocks q = if q = (x, h, z) then m else s.blocks q := by
  unfold GenState.writeBlock
  rw [setBlock_blocks, touch_blocks]

theorem writeCells_safe (f : RegionFeatures) (cp relative : ℤ × ℤ) (x z : ℕ)
    (m : BlockMaterial) :
    ∀ (n b : ℕ) (s : GenState), s.ok = true → b / Chunk.SIZE_Y ≤ s.numChunks →
      (writeCells f cp relative x z m b n s).ok = true
      ∧ s.numChunks ≤ (writeCells f cp relative x z m b n s).numChunks
      ∧ (b + n) / Chunk.SIZE_Y ≤ (writeCells f cp relative x z m b n s).numChunks
      ∧ (0 < n →
          (b + n - 1) / Chunk.SIZE_Y < (writeCells f cp relative x z m b n s).numChunks) := by
  intro n
  induction n with
  | zero =>
    intro b s hok hle
    simp only [writeCells, Nat.add_zero]
    exact ⟨hok, le_refl _, hle, by omega⟩
  | succ n ih =>
    intro b s hok hle
    simp only [writeCells]
    have hw := writeBlock_safe s cp x z b (cellMaterial f relative b m) hok hle
    have hpre : (b + 1) / Chunk.SIZE_Y
        ≤ (s.writeBlock cp x z b (cellMaterial f relative b m)).numChunks := by
      simp only [Chunk.SIZE_Y] at hw ⊢
      omega
    have hrest := ih (b + 1) _ hw.1 hpre
    obtain ⟨hro, hrn, hr3, hr4⟩ := hrest
    refine ⟨hro, le_trans hw.2.2 hrn, ?_, ?_⟩
    · simp only [Chunk.SIZE_Y] at hr3 ⊢
      omega
    · intro _
      rcases Nat.eq_zero_or_pos n with hn | hn
      · subst hn
        simp only [writeCells] at hro hrn hr3 ⊢
        simp only [Chunk.SIZE_Y] at hw ⊢
        omega
      · have hstrict := hr4 hn
        simp only [Chunk.SIZE_Y] at hstrict ⊢
        omega

theorem writeCells_blocks_outside (f : RegionFeatures) (cp relative : ℤ × ℤ) (x z : ℕ)
    (m : BlockMaterial) :
    ∀ (n b : ℕ) (s : GenState) (q : ℕ × ℕ × ℕ),
      (q.1 ≠ x ∨ q.2.2 ≠ z ∨ q.2.1 < b ∨ b + n ≤ q.2.1) →
      (writeCells f cp relative x z m b n s).blocks q = s.blocks q := by
  intro n
  induction n with
  | zero => intro b s q _; rfl
  | succ n ih =>
    intro b s q hq
    simp only [writeCells]
    have hq' : q.1 ≠ x ∨ q.2.2 ≠ z ∨ q.2.1 < b + 1 ∨ b + 1 + n ≤ q.2.1 := by
      rcases hq with h | h | h | h
      · exact Or.inl h
      · exact Or.inr (Or.inl h)
      · exact Or.inr (Or.inr (Or.inl (by omega)))
      · exact Or.inr (Or.inr (Or.inr (by omega)))
    rw [ih (b + 1) _ q hq', writeBlock_blocks]
    have hne : q ≠ (x, b, z) := by
      intro hc
      subst hc
      dsimp only at hq
      rcases hq with h | h | h | h
      · exact h rfl
      · exact h rfl
      · omega
      · omega
    rw [if_neg hne]

theorem writeCells_blocks_last (f : RegionFeatures) (cp relative : ℤ × ℤ) (x z : ℕ)
    (m : BlockMaterial) :
    ∀ (n b : ℕ) (s : GenState), 0 < n →
      (writeCells f cp relative x z m b n s).blocks (x, b + n - 1, z)
        = cellMaterial f relative (b + n - 1) m := by
  intro n
  induction n with
  | zero => intro b s h; omega
  | succ n ih =>
    intro b s _
    rcases Nat.eq_zero_or_pos n with hn | hn
    · subst hn
      simp only [writeCells, Nat.add_sub_cancel]
      rw [writeBlock_blocks, if_pos rfl]
    · simp only [writeCells]
      have heq : b + (n + 1) - 1 = b + 1 + n - 1 := by omega
      rw [heq]
      exact ih (b + 1) _ hn

theorem runBands_snd (f : RegionFeatures) (cp relative : ℤ × ℤ) (x z : ℕ) :
    ∀ (ls : List (BlockMaterial × Scalar)) (s : GenState) (b : ℕ),
      (runBands f cp relative x z ls (s, b)).2 = bandEnd ls b := by
  intro ls
  induction ls with
  | nil => intro s b; rfl
  | cons hd tl ih =>
    intro s b
    obtain ⟨m, hf⟩ := hd
    simp only [runBands, bandEnd]
    exact ih _ _

theorem runBands_safe (f : RegionFeatures) (cp relative : ℤ × ℤ) (x z : ℕ) :
    ∀ (ls : List (BlockMaterial × Scalar)) (s : GenState) (b : ℕ),
      s.ok = true → b / Chunk.SIZE_Y ≤ s.numChunks →
      (runBands f cp relative x z ls (s, b)).1.ok = true
      ∧ s.numChunks ≤ (runBands f cp relative x z ls (s, b)).1.numChunks
      ∧ bandEnd ls b / Chunk.SIZE_Y ≤ (runBands f cp relative x z ls (s, b)).1.numChunks
      ∧ (ls ≠ [] →
          bandEnd ls b / Chunk.SIZE_Y < (runBands f cp relative x z ls (s, b)).1.numChunks) := by
  intro ls
  induction ls with
  | nil =>
    intro s b hok hle
    exact ⟨hok, le_refl _, hle, by simp⟩
  | cons hd tl ih =>
    intro s b hok hle
    obtain ⟨m, hf⟩ := hd
    simp only [runBands, bandEnd]
    have htop : b < topOf hf b := topOf_gt hf b
    have hn : 0 < topOf hf b + 1 - b := by omega
    have hw := writeCells_safe f cp relative x z m (topOf hf b + 1 - b) b s hok hle
    have hlast : b + (topOf hf b + 1 - b) - 1 = topOf hf b := by omega
    have hstrict := hw.2.2.2 hn
    rw [hlast] at hstrict
    have hpre : topOf hf b / Chunk.SIZE_Y
        ≤ (writeCells f cp relative x z m b (topOf hf b + 1 - b) s).numChunks := by
      omega
    have hrest := ih _ (topOf hf b) hw.1 hpre
    refine ⟨hrest.1, le_trans hw.2.1 hrest.2.1, hrest.2.2.1, fun _ => ?_⟩
    cases tl with
    | nil =>
      simp only [runBands, bandEnd] at hrest ⊢
      omega
    | cons hd2 tl2 =>
      exact hrest.2.2.2 (by simp)

theorem runBands_blocks_outside (f : RegionFeatures) (cp relative : ℤ × ℤ) (x z : ℕ) :
    ∀ (ls : List (BlockMaterial × Scalar)) (s : GenState) (b : ℕ) (q : ℕ × ℕ × ℕ),
      (q.1 ≠ x ∨ q.2.2 ≠ z ∨ bandEnd ls b < q.2.1) →
      (runBands f cp relative x z ls (s, b)).1.blocks q = s.blocks q := by
  intro ls
  induction ls with
  | nil => intro s b q _; rfl
  | cons hd tl ih =>
    intro s b q hq
    obtain ⟨m, hf⟩ := hd
    simp only [runBands]
    have hend : topOf hf b ≤ bandEnd tl (topOf hf b) := bandEnd_ge tl (topOf hf b)
    have hq' : q.1 ≠ x ∨ q.2.2 ≠ z ∨ bandEnd tl (topOf hf b) < q.2.1 := by
      rcases hq with h | h | h
      · exact Or.inl h
      · exact Or.inr (Or.inl h)
      · exact Or.inr (Or.inr (by simpa [bandEnd] using h))
    rw [ih _ (topOf hf b) q hq']
    apply writeCells_blocks_outside
    rcases hq' with h | h | h
    · exact Or.inl h
    · exact Or.inr (Or.inl h)
    · refine Or.inr (Or.inr (Or.inr ?_))
      have htop := topOf_gt hf b
      omega

theorem runBands_blocks_at_end (f : RegionFeatures) (cp relative : ℤ × ℤ) (x z : ℕ) :
    ∀ (ls : List (BlockMaterial × Scalar)) (s : GenState) (b : ℕ), ls ≠ [] →
      (runBands f cp relative x z ls (s, b)).1.blocks (x, bandEnd ls b, z)
        = cellMaterial f relative (bandEnd ls b)
            (ls.getLastD (BlockMaterial.air, 0)).1 := by
  intro ls
  induction ls with
  | nil => intro s b h; exact absurd rfl h
  | cons hd tl ih =>
    intro s b _
    obtain ⟨m, hf⟩ := hd
    cases tl with
    | nil =>
      simp only [runBands, bandEnd, List.getLastD]
      have hn : 0 < topOf hf b + 1 - b := by have := topOf_gt hf b; omega
      have hlast : b + (topOf hf b + 1 - b) - 1 = topOf hf b := by
        have := topOf_gt hf b; omega
      have := writeCells_blocks_last f cp relative x z m (topOf hf b + 1 - b) b s hn
      rw [hlast] at this
      exact this
    | cons hd2 tl2 =>
      simp only [runBands, bandEnd, List.getLastD]
      exact ih _ (topOf hf b) (by simp)

/-- The final band top of the column at in-chunk `(x, z)` — a pure function
of the features and positions (independent of the threaded state). -/
def pieceTop (f : RegionFeatures) (rp cp : ℤ × ℤ) (x z : ℕ) : ℕ :=
  bandEnd (layerList (totalHeight f (relativePosition rp cp x z))) 0

theorem columnPiece_snd (f : RegionFeatures) (rp cp : ℤ × ℤ) (x z : ℕ) (s : GenState) :
    (columnPiece f rp cp x z s).2 = pieceTop f rp cp x z :=
  runBands_snd f cp (relativePosition rp cp x z) x z _ s 0

theorem columnLoop_other (f : RegionFeatures) (rp cp : ℤ × ℤ) :
    ∀ (l : List (ℕ × ℕ)) (acc : GenState × ChunkHeightmap) (a b : ℕ),
      (∀ e ∈ l, e ≠ (a, b)) →
      (columnLoop f rp cp l acc).2 a b = acc.2 a b
      ∧ ∀ y, (columnLoop f rp cp l acc).1.blocks (a, y, b) = acc.1.blocks (a, y, b) := by
  intro l
  induction l with
  | nil => intro acc a b _; exact ⟨rfl, fun _ => rfl⟩
  | cons hd tl ih =>
    intro acc a b hne
    obtain ⟨x, z⟩ := hd
    obtain ⟨s, hm⟩ := acc
    simp only [columnLoop]
    have hhd : (x, z) ≠ (a, b) := hne (x, z) (by simp)
    have hcol : a ≠ x ∨ b ≠ z := by
      by_contra hc
      push_neg at hc
      exact hhd (by rw [hc.1, hc.2])
    have hih := ih ((columnPiece f rp cp x z s).1,
        fun a' b' => if a' = x ∧ b' = z then (columnPiece f rp cp x z s).2 else hm a' b')
      a b (fun e he => hne e (List.mem_cons_of_mem _ he))
    constructor
    · rw [hih.1]
      have hcond : ¬(a = x ∧ b = z) := by
        intro hc
        exact absurd (Or.imp Ne.symm Ne.symm hcol) (by simp [hc.1, hc.2])
      dsimp only
      rw [if_neg hcond]
    · intro y
      rw [hih.2 y]
      show (columnPiece f rp cp x z s).1.blocks (a, y, b) = s.blocks (a, y, b)
      unfold columnPiece
      apply runBands_blocks_outside
      rcases hcol with h | h
      · exact Or.inl h
      · exact Or.inr (Or.inl h)

theorem columnLoop_result (f : RegionFeatures) (rp cp : ℤ × ℤ) :
    ∀ (l : List (ℕ × ℕ)) (acc : GenState × ChunkHeightmap) (a b : ℕ), (a, b) ∈ l →
      (columnLoop f rp cp l acc).2 a b = pieceTop f rp cp a b
      ∧ (∀ y, pieceTop f rp cp a b < y →
          (columnLoop f rp cp l acc).1.blocks (a, y, b) = acc.1.blocks (a, y, b))
      ∧ (columnLoop f rp cp l acc).1.blocks (a, pieceTop f rp cp a b, b)
          = cellMaterial f (relativePosition rp cp a b) (pieceTop f rp cp a b)
              BlockMaterial.grass := by
  intro l
  induction l with
  | nil => intro acc a b h; simp at h
  | cons hd tl ih =>
    intro acc a b hmem
    obtain ⟨x, z⟩ := hd
    obtain ⟨s, hm⟩ := acc
    by_cases htl : (a, b) ∈ tl
    · simp only [columnLoop]
      have hih := ih ((columnPiece f rp cp x z s).1,
          fun a' b' => if a' = x ∧ b' = z then (columnPiece f rp cp x z s).2 else hm a' b')
        a b htl
      refine ⟨hih.1, ?_, hih.2.2⟩
      intro y hy
      rw [hih.2.1 y hy]
      show (columnPiece f rp cp x z s).1.blocks (a, y, b) = s.blocks (a, y, b)
      by_cases hxa : x = a ∧ z = b
      · obtain ⟨rfl, rfl⟩ := hxa
        unfold columnPiece
        apply runBands_blocks_outside
        exact Or.inr (Or.inr hy)
      · unfold columnPiece
        apply runBands_blocks_outside
        rcases not_and_or.mp hxa with h | h
        · exact Or.inl (Ne.symm h)
        · exact Or.inr (Or.inl (Ne.symm h))
    · have heq : (a, b) = (x, z) := (List.mem_cons.mp hmem).resolve_right htl
      have hx : a = x := congrArg Prod.fst heq
      have hz : b = z := congrArg Prod.snd heq
      subst hx
      subst hz
      simp only [columnLoop]
      have hoth := columnLoop_other f rp cp tl
        ((columnPiece f rp cp a b s).1,
          fun a' b' => if a' = a ∧ b' = b then (columnPiece f rp cp a b s).2 else hm a' b')
        a b (fun e he => by
          intro hc
          subst hc
          exact htl he)
      refine ⟨?_, ?_, ?_⟩
      · rw [hoth.1]
        simp only [and_self, if_true]
        exact columnPiece_snd f rp cp a b s
      · intro y hy
        rw [hoth.2 y]
        show (columnPiece f rp cp a b s).1.blocks (a, y, b) = s.blocks (a, y, b)
        unfold columnPiece
        apply runBands_blocks_outside
        exact Or.inr (Or.inr hy)
      · rw [hoth.2 _]
        show (columnPiece f rp cp a b s).1.blocks (a, pieceTop f rp cp a b, b) = _
        unfold columnPiece pieceTop
        have hne : layerList (totalHeight f (relativePosition rp cp a b)) ≠ [] := by
          simp [layerList]
        have := runBands_blocks_at_end f cp (relativePosition rp cp a b) a b
          (layerList (totalHeight f (relativePosition rp cp a b))) s 0 hne
        rw [this]
        rfl

theorem mem_allXZ {a b : ℕ} (ha : a < Chunk.SIZE_X) (hb : b < Chunk.SIZE_Z) :
    (a, b) ∈ allXZ := by
  simp only [allXZ, List.mem_flatMap, List.mem_map, List.mem_range]
  exact ⟨a, ha, b, hb, rfl⟩

/-! ### C5 -/

/-- **C5** (amended): after `generate_chunk_column`, the heightmap entry of
every in-chunk column `(x, z)` records the final (grass) band top; every
block strictly above that height is air; and the block stored at that
height is the grass-band cell value — grass, unless the dual-density
carving window turned that surface cell to air. -/
theorem heightmap_records_band_top (f : RegionFeatures) (rp cp : ℤ × ℤ) (a b : ℕ)
    (ha : a < Chunk.SIZE_X) (hb : b < Chunk.SIZE_Z) :
    ((generateChunkColumn f rp cp).2 a b = pieceTop f rp cp a b)
    ∧ (∀ y, pieceTop f rp cp a b < y →
        (generateChunkColumn f rp cp).1.blocks (a, y, b) = BlockMaterial.air)
    ∧ ((generateChunkColumn f rp cp).1.blocks (a, pieceTop f rp cp a b, b)
        = cellMaterial f (relativePosition rp cp a b) (pieceTop f rp cp a b)
            BlockMaterial.grass) := by
  have h := columnLoop_result f rp cp allXZ (GenState.initial, fun _ _ => 0) a b
    (mem_allXZ ha hb)
  exact ⟨h.1, fun y hy => h.2.1 y hy, h.2.2⟩

theorem topOf_natval (n b : ℕ) (h : b + 1 ≤ n) : topOf (n : Scalar) b = n := by
  unfold topOf roundQ
  have hmax : max (n : Scalar) ((b : Scalar) + 1) = (n : Scalar) :=
    max_eq_left (by exact_mod_cast h)
  rw [hmax, if_pos (by positivity)]
  have h2 : ⌊((n : ℤ) : Scalar) + 1 / 2⌋ = (n : ℤ) + ⌊(1 / 2 : Scalar)⌋ :=
    Int.floor_int_add (n : ℤ) (1 / 2)
  have h3 : ((n : ℤ) : Scalar) = (n : Scalar) := by push_cast; ring
  rw [h3] at h2
  rw [h2]
  norm_num

theorem totalHeight_carveFeatures :
    totalHeight carveFeatures (relativePosition (0, 0) (0, 0) 0 0) = 32 := by
  have ho : ∀ idx, carveFeatures.getOctavePatch idx = constPatch 0 := by
    intro idx
    unfold RegionFeatures.getOctavePatch carveFeatures
    split_ifs <;> rfl
  have hf : carveFeatures.fundamental = constPatch 0 := rfl
  unfold totalHeight
  dsimp only
  rw [hf, ho, constPatch_interpolate, constPatch_interpolate]
  norm_num

/-- **C5** counterexample: with the explicit features `carveFeatures`
(flat height fields, both density boxes constantly 1/2, which is inside
the carving window), `generate_chunk_column` records height 95 for the
column at (0,0), yet the block stored at that height is air — the
recorded heightmap entry is not the height of a topmost solid block with
a non-air band material. -/
theorem heightmap_counterexample :
    (generateChunkColumn carveFeatures (0, 0) (0, 0)).2 0 0 = 95
    ∧ (generateChunkColumn carveFeatures (0, 0) (0, 0)).1.blocks (0, 95, 0)
        = BlockMaterial.air := by
  have h := columnLoop_result carveFeatures (0, 0) (0, 0) allXZ
    (GenState.initial, fun _ _ => 0) 0 0
    (mem_allXZ (by norm_num [Chunk.SIZE_X]) (by norm_num [Chunk.SIZE_Z]))
  have hpt : pieceTop carveFeatures (0, 0) (0, 0) 0 0 = 95 := by
    unfold pieceTop
    rw [totalHeight_carveFeatures]
    show bandEnd (layerList 32) 0 = 95
    have e1 : topOf 1 0 = 1 := by
      rw [show (1 : Scalar) = ((1 : ℕ) : Scalar) by norm_num]
      exact topOf_natval 1 0 (by norm_num)
    have e2 : topOf (20 + 32 * (1 / 4)) 1 = 28 := by
      rw [show (20 + (32 : Scalar) * (1 / 4)) = ((28 : ℕ) : Scalar) by norm_num]
      exact topOf_natval 28 1 (by norm_num)
    have e3 : topOf (52 + 32) 28 = 84 := by
      rw [show (52 + (32 : Scalar)) = ((84 : ℕ) : Scalar) by norm_num]
      exact topOf_natval 84 28 (by norm_num)
    have e4 : topOf (58 + 32) 84 = 90 := by
      rw [show (58 + (32 : Scalar)) = ((90 : ℕ) : Scalar) by norm_num]
      exact topOf_natval 90 84 (by norm_num)
    have e5 : topOf (62 + 32) 90 = 94 := by
      rw [show (62 + (32 : Scalar)) = ((94 : ℕ) : Scalar) by norm_num]
      exact topOf_natval 94 90 (by norm_num)
    have e6 : topOf (63 + 32) 94 = 95 := by
      rw [show (63 + (32 : Scalar)) = ((95 : ℕ) : Scalar) by norm_num]
      exact topOf_natval 95 94 (by norm_num)
    simp only [bandEnd, layerList]
    rw [e1, e2, e3, e4, e5, e6]
  have hcell : cellMaterial carveFeatures (relativePosition (0, 0) (0, 0) 0 0) 95
      BlockMaterial.grass = BlockMaterial.air := by
    unfold cellMaterial
    rw [if_neg (by simp)]
    have hb0 : carveFeatures.box0 = constBox (1 / 2) := rfl
    have hb1 : carveFeatures.box1 = constBox (1 / 2) := rfl
    dsimp only
    rw [hb0, hb1, constBox_interpolate]
    rw [if_pos (by norm_num)]
  constructor
  · rw [← hpt]
    exact h.1
  · have hat := h.2.2
    rw [hpt] at hat
    exact hat.trans hcell

theorem heightmap_records_band_top_witness :
    0 < Chunk.SIZE_X ∧ 0 < Chunk.SIZE_Z
    ∧ ((generateChunkColumn carveFeatures (0, 0) (0, 0)).2 0 0
        = pieceTop carveFeatures (0, 0) (0, 0) 0 0) := by
  refine ⟨by norm_num [Chunk.SIZE_X], by norm_num [Chunk.SIZE_Z], ?_⟩
  exact (heightmap_records_band_top carveFeatures (0, 0) (0, 0) 0 0
    (by norm_num [Chunk.SIZE_X]) (by norm_num [Chunk.SIZE_Z])).1

/-! ### C6 -/

/-- The canopy-write safety relation: any cell that is air (resp. leaf) in
the later state was air (resp. air or already leaf) in the earlier
state — leaf material is only ever written over air. -/
def leafSafe (s0 s1 : GenState) : Prop :=
  ∀ q : ℕ × ℕ × ℕ,
    (s1.blocks q = BlockMaterial.air → s0.blocks q = BlockMaterial.air)
    ∧ (s1.blocks q = BlockMaterial.treeLeaf →
        s0.blocks q = BlockMaterial.air ∨ s0.blocks q = BlockMaterial.treeLeaf)

theorem leafSafe_refl (s : GenState) : leafSafe s s :=
  fun _ => ⟨fun h => h, fun h => Or.inr h⟩

theorem leafSafe_of_blocks_eq {s0 s1 : GenState} (h : s1.blocks = s0.blocks) :
    leafSafe s0 s1 := by
  intro q
  rw [h]
  exact leafSafe_refl s0 q

theorem leafLoopV_leafSafe (cp : ℤ × ℤ) (x z u : ℤ) (h : ℕ) (s0 : GenState) :
    ∀ (vs : List ℤ) (s : GenState), leafSafe s0 s →
      leafSafe s0 (leafLoopV cp x z u h vs s) := by
  intro vs
  induction vs with
  | nil => intro s hs; exact hs
  | cons v rest ih =>
    intro s hs
    simp only [leafLoopV, GenState.readBlock]
    apply ih
    split
    · split
      case isTrue hair =>
        intro q
        rw [setBlock_blocks, touch_blocks]
        split
        case isTrue hq =>
          subst hq
          exact ⟨fun hc => by simp_all, fun _ => Or.inl ((hs _).1 hair)⟩
        case isFalse hq => exact hs q
      case isFalse hair =>
        intro q
        rw [touch_blocks]
        exact hs q
    · exact hs

theorem leafLoopU_leafSafe (cp : ℤ × ℤ) (x z : ℤ) (h : ℕ) (vs : List ℤ) (s0 : GenState) :
    ∀ (us : List ℤ) (s : GenState), leafSafe s0 s →
      leafSafe s0 (leafLoopU cp x z h vs us s) := by
  intro us
  induction us with
  | nil => intro s hs; exact hs
  | cons u rest ih =>
    intro s hs
    simp only [leafLoopU]
    exact ih _ (leafLoopV_leafSafe cp x z u h s0 vs s hs)

theorem trunkLoop_leafSafe (cp : ℤ × ℤ) (x z : ℤ) (bottom : ℕ) (height radius : ℤ)
    (s0 : GenState) :
    ∀ (ys : List ℤ) (s : GenState), leafSafe s0 s →
      leafSafe s0 (trunkLoop cp x z bottom height radius ys s) := by
  intro ys
  induction ys with
  | nil => intro s hs; exact hs
  | cons y rest ih =>
    intro s hs
    simp only [trunkLoop]
    apply ih
    have hs1 : leafSafe s0 (s.writeBlock cp (u32 x) (u32 z) (bottom + y.toNat)
        BlockMaterial.treeTrunk) := by
      intro q
      rw [writeBlock_blocks]
      split
      case isTrue hq => exact ⟨fun hc => by simp_all, fun hc => by simp_all⟩
      case isFalse hq => exact hs q
    split
    · exact leafLoopU_leafSafe _ _ _ _ _ s0 _ _ hs1
    · exact hs1

/-- **C6**: the vegetation pass roots a tree only where the block read at
the heightmap height holds grass — otherwise no block material changes at
all — and a canopy write never overwrites a pre-existing non-air block:
when the input column contains no pre-existing leaf material, any cell
holding leaf material after the pass was air before it. -/
theorem tree_placement_validity (world_seed : ℕ) (s : GenState) (cp : ℤ × ℤ)
    (heights : ChunkHeightmap)
    (hnl : ∀ q : ℕ × ℕ × ℕ, s.blocks q ≠ BlockMaterial.treeLeaf) :
    (s.blocks (u32 (treeDraws world_seed cp).1,
        heights (u32 (treeDraws world_seed cp).1) (u32 (treeDraws world_seed cp).2.1),
        u32 (treeDraws world_seed cp).2.1) ≠ BlockMaterial.grass →
      (populateTrees world_seed s cp heights).blocks = s.blocks)
    ∧ (∀ q : ℕ × ℕ × ℕ,
        (populateTrees world_seed s cp heights).blocks q = BlockMaterial.treeLeaf →
          s.blocks q = BlockMaterial.air) := by
  constructor
  · intro hroot
    unfold populateTrees
    dsimp only [GenState.readBlock]
    rw [if_neg hroot]
    exact touch_blocks s cp _
  · intro q
    unfold populateTrees
    dsimp only [GenState.readBlock]
    split
    · have hbase : leafSafe s (s.touch cp
          (heights (u32 (treeDraws world_seed cp).1) (u32 (treeDraws world_seed cp).2.1))) :=
        leafSafe_of_blocks_eq (touch_blocks s cp _)
      intro hleaf
      rcases (trunkLoop_leafSafe _ _ _ _ _ _ s _ _ hbase q).2 hleaf with hc | hc
      · exact hc
      · exact absurd hc (hnl q)
    · intro hleaf
      rw [touch_blocks] at hleaf
      exact absurd hleaf (hnl q)

theorem tree_placement_validity_witness :
    (∀ q : ℕ × ℕ × ℕ, GenState.initial.blocks q ≠ BlockMaterial.treeLeaf)
    ∧ (∀ q : ℕ × ℕ × ℕ,
        (populateTrees 0 GenState.initial (0, 0) (fun _ _ => 0)).blocks q
            = BlockMaterial.treeLeaf →
          GenState.initial.blocks q = BlockMaterial.air) := by
  have hnl : ∀ q : ℕ × ℕ × ℕ, GenState.initial.blocks q ≠ BlockMaterial.treeLeaf := by
    intro q
    simp [GenState.initial]
  exact ⟨hnl, (tree_placement_validity 0 GenState.initial (0, 0) (fun _ _ => 0) hnl).2⟩

/-! ### C7 -/

theorem mem_intRangeAux : ∀ (n : ℕ) (lo u : ℤ),
    u ∈ intRangeAux n lo ↔ lo ≤ u ∧ u < lo + n := by
  intro n
  induction n with
  | zero => intro lo u; simp [intRangeAux]
  | succ n ih =>
    intro lo u
    simp only [intRangeAux, List.mem_cons, ih (lo + 1) u]
    constructor
    · rintro (rfl | ⟨h1, h2⟩) <;> omega
    · intro ⟨h1, h2⟩
      rcases eq_or_lt_of_le h1 with rfl | hlt
      · exact Or.inl rfl
      · exact Or.inr ⟨by omega, by omega⟩

theorem mem_intRange {u lo hi : ℤ} : u ∈ intRange lo hi ↔ lo ≤ u ∧ u ≤ hi := by
  unfold intRange
  rw [mem_intRangeAux]
  omega

/-- **C7**: every tree attempt draws its root offsets x and z inside
`[MAX_TREE_RADIUS, edge - MAX_TREE_RADIUS - 1]` and its canopy radius
inside `[MIN_TREE_RADIUS, MAX_TREE_RADIUS]`, so every leaf-cell coordinate
`(x+u, z+v)` visited by the canopy loops stays inside the chunk footprint
`[0, SIZE_X-1] × [0, SIZE_Z-1]`, and no trunk or leaf write indexes
outside the chunk's horizontal extent. -/
theorem tree_canopy_in_bounds (world_seed : ℕ) (cp : ℤ × ℤ) (leaf_height u v : ℤ)
    (hlh : 0 ≤ leaf_height)
    (hu : u ∈ intRange (-(treeDraws world_seed cp).2.2.2 + leaf_height)
            ((treeDraws world_seed cp).2.2.2 - leaf_height))
    (hv : v ∈ intRange (-(treeDraws world_seed cp).2.2.2 + leaf_height)
            ((treeDraws world_seed cp).2.2.2 - leaf_height)) :
    (MAX_TREE_RADIUS ≤ (treeDraws world_seed cp).1
      ∧ (treeDraws world_seed cp).1 ≤ (Chunk.SIZE_X : ℤ) - MAX_TREE_RADIUS - 1)
    ∧ (MAX_TREE_RADIUS ≤ (treeDraws world_seed cp).2.1
      ∧ (treeDraws world_seed cp).2.1 ≤ (Chunk.SIZE_Z : ℤ) - MAX_TREE_RADIUS - 1)
    ∧ (MIN_TREE_RADIUS ≤ (treeDraws world_seed cp).2.2.2
      ∧ (treeDraws world_seed cp).2.2.2 ≤ MAX_TREE_RADIUS)
    ∧ (0 ≤ (treeDraws world_seed cp).1 + u
      ∧ (treeDraws world_seed cp).1 + u ≤ (Chunk.SIZE_X : ℤ) - 1)
    ∧ (0 ≤ (treeDraws world_seed cp).2.1 + v
      ∧ (treeDraws world_seed cp).2.1 + v ≤ (Chunk.SIZE_Z : ℤ) - 1) := by
  have hX : MAX_TREE_RADIUS ≤ (Chunk.SIZE_X : ℤ) - MAX_TREE_RADIUS - 1 := by
    norm_num [MAX_TREE_RADIUS, Chunk.SIZE_X]
  have hZ : MAX_TREE_RADIUS ≤ (Chunk.SIZE_Z : ℤ) - MAX_TREE_RADIUS - 1 := by
    norm_num [MAX_TREE_RADIUS, Chunk.SIZE_Z]
  have hR : MIN_TREE_RADIUS ≤ MAX_TREE_RADIUS := by
    norm_num [MIN_TREE_RADIUS, MAX_TREE_RADIUS]
  have hxeq : (treeDraws world_seed cp).1
      = (uniformInt (getSeedForCoordinates world_seed cp) MAX_TREE_RADIUS
          ((Chunk.SIZE_X : ℤ) - MAX_TREE_RADIUS - 1)).1 := rfl
  have hzeq : (treeDraws world_seed cp).2.1
      = (uniformInt (treeDrawX world_seed cp).2 MAX_TREE_RADIUS
          ((Chunk.SIZE_Z : ℤ) - MAX_TREE_RADIUS - 1)).1 := rfl
  have hreq : (treeDraws world_seed cp).2.2.2
      = (uniformInt (treeDrawH world_seed cp).2 MIN_TREE_RADIUS MAX_TREE_RADIUS).1 := rfl
  have hx := uniformInt_mem (getSeedForCoordinates world_seed cp) hX
  rw [← hxeq] at hx
  have hz := uniformInt_mem (treeDrawX world_seed cp).2 hZ
  rw [← hzeq] at hz
  have hr := uniformInt_mem (treeDrawH world_seed cp).2 hR
  rw [← hreq] at hr
  have hu' := mem_intRange.mp hu
  have hv' := mem_intRange.mp hv
  simp only [MAX_TREE_RADIUS, MIN_TREE_RADIUS, Chunk.SIZE_X, Chunk.SIZE_Z] at hx hz hr ⊢
  push_cast at hx hz hr ⊢
  refine ⟨⟨hx.1, hx.2⟩, ⟨hz.1, hz.2⟩, ⟨hr.1, hr.2⟩, ?_, ?_⟩ <;> constructor <;> omega

theorem tree_canopy_in_bounds_witness :
    (0 : ℤ) ≤ 0
    ∧ (0 : ℤ) ∈ intRange (-(treeDraws 0 (0, 0)).2.2.2 + 0) ((treeDraws 0 (0, 0)).2.2.2 - 0)
    ∧ (0 ≤ (treeDraws 0 (0, 0)).1 + 0
      ∧ (treeDraws 0 (0, 0)).1 + 0 ≤ (Chunk.SIZE_X : ℤ) - 1) := by
  have hreq : (treeDraws 0 (0, 0)).2.2.2
      = (uniformInt (treeDrawH 0 (0, 0)).2 MIN_TREE_RADIUS MAX_TREE_RADIUS).1 := rfl
  have hr := uniformInt_mem (treeDrawH 0 (0, 0)).2
    (show MIN_TREE_RADIUS ≤ MAX_TREE_RADIUS by norm_num [MIN_TREE_RADIUS, MAX_TREE_RADIUS])
  rw [← hreq] at hr
  have hmem : (0 : ℤ) ∈ intRange (-(treeDraws 0 (0, 0)).2.2.2 + 0)
      ((treeDraws 0 (0, 0)).2.2.2 - 0) := by
    rw [mem_intRange]
    simp only [MIN_TREE_RADIUS, MAX_TREE_RADIUS] at hr
    omega
  exact ⟨le_refl 0, hmem,
    (tree_canopy_in_bounds 0 (0, 0) 0 0 0 (le_refl 0) hmem hmem).2.2.2.1⟩

/-! ### C10 -/

theorem touch_of_lt {s : GenState} (cp : ℤ × ℤ) {h : ℕ} (hok : s.ok = true)
    (hlt : h / Chunk.SIZE_Y < s.numChunks) :
    (s.touch cp h).ok = true ∧ (s.touch cp h).numChunks = s.numChunks := by
  unfold GenState.touch
  dsimp only
  rw [if_neg (by omega)]
  refine ⟨?_, rfl⟩
  simp only [hok, Bool.true_and, decide_eq_true_eq]
  exact hlt

theorem leafLoopV_safe (cp : ℤ × ℤ) (x z u : ℤ) (h : ℕ) :
    ∀ (vs : List ℤ) (s : GenState), s.ok = true → h / Chunk.SIZE_Y < s.numChunks →
      (leafLoopV cp x z u h vs s).ok = true
      ∧ (leafLoopV cp x z u h vs s).numChunks = s.numChunks := by
  intro vs
  induction vs with
  | nil => intro s hok hlt; exact ⟨hok, rfl⟩
  | cons v rest ih =>
    intro s hok hlt
    simp only [leafLoopV, GenState.readBlock]
    split
    · have ht := touch_of_lt (s := s) cp hok hlt
      split
      · have := ih ((s.touch cp h).setBlock (u32 (x + u)) (u32 (z + v)) h
          BlockMaterial.treeLeaf) (by rw [(setBlock_fields _ _ _ _ _).1]; exact ht.1)
          (by rw [(setBlock_fields _ _ _ _ _).2, ht.2]; exact hlt)
        rw [this.1, this.2, (setBlock_fields _ _ _ _ _).2, ht.2]
        exact ⟨rfl, rfl⟩
      · have := ih (s.touch cp h) ht.1 (by rw [ht.2]; exact hlt)
        rw [this.1, this.2, ht.2]
        exact ⟨rfl, rfl⟩
    · exact ih s hok hlt

theorem leafLoopU_safe (cp : ℤ × ℤ) (x z : ℤ) (h : ℕ) (vs : List ℤ) :
    ∀ (us : List ℤ) (s : GenState), s.ok = true → h / Chunk.SIZE_Y < s.numChunks →
      (leafLoopU cp x z h vs us s).ok = true
      ∧ (leafLoopU cp x z h vs us s).numChunks = s.numChunks := by
  intro us
  induction us with
  | nil => intro s hok hlt; exact ⟨hok, rfl⟩
  | cons u rest ih =>
    intro s hok hlt
    simp only [leafLoopU]
    have hv := leafLoopV_safe cp x z u h vs s hok hlt
    have := ih (leafLoopV cp x z u h vs s) hv.1 (by rw [hv.2]; exact hlt)
    rw [this.1, this.2, hv.2]
    exact ⟨rfl, rfl⟩

theorem trunkLoop_safe (cp : ℤ × ℤ) (x z : ℤ) (bottom : ℕ) (height radius : ℤ) :
    ∀ (n : ℕ) (y0 : ℤ) (s : GenState), 1 ≤ y0 → s.ok = true →
      (bottom + y0.toNat) / Chunk.SIZE_Y ≤ s.numChunks →
      (trunkLoop cp x z bottom height radius (intRangeAux n y0) s).ok = true := by
  intro n
  induction n with
  | zero => intro y0 s _ hok _; exact hok
  | succ n ih =>
    intro y0 s hy0 hok hle
    simp only [intRangeAux, trunkLoop]
    have hw := writeBlock_safe s cp (u32 x) (u32 z) (bottom + y0.toNat)
      BlockMaterial.treeTrunk hok hle
    set s1 := s.writeBlock cp (u32 x) (u32 z) (bottom + y0.toNat) BlockMaterial.treeTrunk
    have hs2 : ∀ s2 : GenState, s2.ok = true →
        (bottom + y0.toNat) / Chunk.SIZE_Y < s2.numChunks →
        (trunkLoop cp x z bottom height radius (intRangeAux n (y0 + 1)) s2).ok = true := by
      intro s2 hok2 hlt2
      apply ih (y0 + 1) s2 (by omega) hok2
      have htn : (y0 + 1).toNat = y0.toNat + 1 := by omega
      rw [htn]
      simp only [Chunk.SIZE_Y] at hlt2 ⊢
      omega
    split
    · have hl := leafLoopU_safe cp x z (bottom + y0.toNat)
        (intRange (-radius + (y0 - (height - radius - 1)))
          (radius - (y0 - (height - radius - 1))))
        (intRange (-radius + (y0 - (height - radius - 1)))
          (radius - (y0 - (height - radius - 1))))
        s1 hw.1 hw.2.1
      exact hs2 _ hl.1 (by rw [hl.2]; exact hw.2.1)
    · exact hs2 s1 hw.1 hw.2.1

theorem u32_eq_toNat {i : ℤ} (h0 : 0 ≤ i) (h1 : i < 2 ^ 32) : u32 i = i.toNat := by
  unfold u32
  rw [Int.emod_eq_of_lt h0 h1]

theorem populateTrees_safe (world_seed : ℕ) (s : GenState) (cp : ℤ × ℤ)
    (heights : ChunkHeightmap) (hok : s.ok = true)
    (hh : heights (u32 (treeDraws world_seed cp).1) (u32 (treeDraws world_seed cp).2.1)
        / Chunk.SIZE_Y < s.numChunks) :
    (populateTrees world_seed s cp heights).ok = true := by
  unfold populateTrees
  dsimp only [GenState.readBlock]
  have ht := touch_of_lt (s := s) cp hok hh
  split
  · show (trunkLoop cp _ _ _ _ _ (intRange 1 ((treeDraws world_seed cp).2.2.1 - 1)) _).ok = true
    unfold intRange
    apply trunkLoop_safe cp _ _ _ _ _ _ 1 _ (by norm_num) ht.1
    rw [ht.2]
    have h1 : ((1 : ℤ)).toNat = 1 := rfl
    rw [h1]
    simp only [Chunk.SIZE_Y] at hh ⊢
    omega
  · exact ht.1

theorem columnLoop_heights_safe (f : RegionFeatures) (rp cp : ℤ × ℤ) :
    ∀ (l : List (ℕ × ℕ)) (acc : GenState × ChunkHeightmap), acc.1.ok = true →
      (columnLoop f rp cp l acc).1.ok = true
      ∧ acc.1.numChunks ≤ (columnLoop f rp cp l acc).1.numChunks
      ∧ ∀ a b, ((a, b) ∈ l ∨ acc.2 a b / Chunk.SIZE_Y < acc.1.numChunks) →
          (columnLoop f rp cp l acc).2 a b / Chunk.SIZE_Y
            < (columnLoop f rp cp l acc).1.numChunks := by
  intro l
  induction l with
  | nil =>
    intro acc hok
    refine ⟨hok, le_refl _, ?_⟩
    intro a b hcase
    rcases hcase with hmem | hbound
    · simp at hmem
    · exact hbound
  | cons hd tl ih =>
    intro acc hok
    obtain ⟨x, z⟩ := hd
    obtain ⟨s, hm⟩ := acc
    simp only [columnLoop]
    have hpiece := runBands_safe f cp (relativePosition rp cp x z) x z
      (layerList (totalHeight f (relativePosition rp cp x z))) s 0 hok
      (by simp [Nat.zero_div])
    have hpn : (columnPiece f rp cp x z s).1
        = (runBands f cp (relativePosition rp cp x z) x z
            (layerList (totalHeight f (relativePosition rp cp x z))) (s, 0)).1 := rfl
    rw [← hpn] at hpiece
    have hr2 : (columnPiece f rp cp x z s).2 = pieceTop f rp cp x z :=
      columnPiece_snd f rp cp x z s
    have hstrict : pieceTop f rp cp x z / Chunk.SIZE_Y
        < (columnPiece f rp cp x z s).1.numChunks := by
      exact hpiece.2.2.2 (by simp [layerList])
    have hih := ih ((columnPiece f rp cp x z s).1,
        fun a' b' => if a' = x ∧ b' = z then (columnPiece f rp cp x z s).2 else hm a' b')
      (hpiece.1)
    refine ⟨hih.1, le_trans hpiece.2.1 hih.2.1, ?_⟩
    intro a b hcase
    apply hih.2.2
    by_cases hab : a = x ∧ b = z
    · right
      dsimp only
      rw [if_pos hab, hr2]
      exact hstrict
    · rcases hcase with hmem | hbound
      · rcases List.mem_cons.mp hmem with heq | hmem'
        · exfalso
          apply hab
          exact ⟨congrArg Prod.fst heq, congrArg Prod.snd heq⟩
        · exact Or.inl hmem'
      · right
        dsimp only
        rw [if_neg hab]
        have hmono := hpiece.2.1
        omega

/-- The drawn tree-root x offset, converted to the unsigned `get_block`
index, is inside the chunk's x extent. -/
theorem treeRoot_x_lt (world_seed : ℕ) (cp : ℤ × ℤ) :
    u32 (treeDraws world_seed cp).1 < Chunk.SIZE_X := by
  have hX : MAX_TREE_RADIUS ≤ (Chunk.SIZE_X : ℤ) - MAX_TREE_RADIUS - 1 := by
    norm_num [MAX_TREE_RADIUS, Chunk.SIZE_X]
  have hxeq : (treeDraws world_seed cp).1
      = (uniformInt (getSeedForCoordinates world_seed cp) MAX_TREE_RADIUS
          ((Chunk.SIZE_X : ℤ) - MAX_TREE_RADIUS - 1)).1 := rfl
  have hx := uniformInt_mem (getSeedForCoordinates world_seed cp) hX
  rw [← hxeq] at hx
  simp only [MAX_TREE_RADIUS, Chunk.SIZE_X] at hx ⊢
  rw [u32_eq_toNat (by omega) (by omega)]
  omega

/-- The drawn tree-root z offset, converted to the unsigned `get_block`
index, is inside the chunk's z extent. -/
theorem treeRoot_z_lt (world_seed : ℕ) (cp : ℤ × ℤ) :
    u32 (treeDraws world_seed cp).2.1 < Chunk.SIZE_Z := by
  have hZ : MAX_TREE_RADIUS ≤ (Chunk.SIZE_Z : ℤ) - MAX_TREE_RADIUS - 1 := by
    norm_num [MAX_TREE_RADIUS, Chunk.SIZE_Z]
  have hzeq : (treeDraws world_seed cp).2.1
      = (uniformInt (treeDrawX world_seed cp).2 MAX_TREE_RADIUS
          ((Chunk.SIZE_Z : ℤ) - MAX_TREE_RADIUS - 1)).1 := rfl
  have hz := uniformInt_mem (treeDrawX world_seed cp).2 hZ
  rw [← hzeq] at hz
  simp only [MAX_TREE_RADIUS, Chunk.SIZE_Z] at hz ⊢
  rw [u32_eq_toNat (by omega) (by omega)]
  omega

/-- **C10**: every `chunks[chunk_index]` access performed by `get_block`
during the generation of a chunk column — both the layering loops and the
vegetation pass — is within the bounds of the chunk vector after
`get_block`'s single conditional `push_back` (the `ok` instrumentation
flag never drops to `false`). -/
theorem get_block_accesses_in_bounds (world_seed : ℕ) (f : RegionFeatures)
    (rp cp : ℤ × ℤ) :
    (generateChunkColumn f rp cp).1.ok = true
    ∧ (columnState world_seed f rp cp).ok = true := by
  have hcol := columnLoop_heights_safe f rp cp allXZ
    (GenState.initial, fun _ _ => 0) rfl
  have hgc : generateChunkColumn f rp cp
      = columnLoop f rp cp allXZ (GenState.initial, fun _ _ => 0) := rfl
  constructor
  · rw [hgc]
    exact hcol.1
  · show (populateTrees world_seed (generateChunkColumn f rp cp).1 cp
        (generateChunkColumn f rp cp).2).ok = true
    rw [hgc]
    apply populateTrees_safe
    · exact hcol.1
    · have hb := hcol.2.2 (u32 (treeDraws world_seed cp).1)
        (u32 (treeDraws world_seed cp).2.1)
        (Or.inl (mem_allXZ (treeRoot_x_lt world_seed cp) (treeRoot_z_lt world_seed cp)))
      exact hb
